import Mathlib

/-!
A shallow embedding of the `Malloc` allocator (`src/block.c`, `src/posix.c`)

The C heap is modelled component-wise: every field of `struct block` is a map
from block addresses to values, and the payload bytes are a map from addresses
to bytes.  Addresses, `size_t` values and pointers are natural numbers; every
`size_t` / pointer computation of the source is reduced modulo `2 ^ wordBits`
at the place where the C expression is evaluated.

The header `malloc/block.h`, the counter facility and `freelist.c` are not part
of the sources.  The constants they declare are fields of `Env`; the functions
they define are modelled from the specification and marked as such.
-/

namespace Malloc

/-! ## Platform, heap growth oracle, state -/

/-- Platform constants (declared in the absent `malloc/block.h`), the address of
the free-list head, the behaviour of the operating system's heap growth
primitive, and the bound on list traversals. -/
structure Env where
  /-- Width of `size_t`, `intptr_t` and of pointers, in bits. -/
  wordBits : Nat
  /-- The alignment unit `ALIGNMENT`. -/
  ALIGNMENT : Nat
  /-- The header size `sizeof(Block)`. -/
  HEADER : Nat
  /-- The trim threshold `TRIM_THRESHOLD`. -/
  TRIM_THRESHOLD : Nat
  /-- Address of the free-list head block `FreeList`. -/
  FREELIST : Nat
  /-- Whether the operating system grants `sbrk(increment)` at a given break. -/
  sbrkOk : Nat → Int → Bool
  /-- Bound on the number of free-list members visited by one traversal. -/
  fuel : Nat

/-- Number of values of `size_t`. -/
def Env.modulus (env : Env) : Nat := 2 ^ env.wordBits

/-- The observability counters.  Their C type is declared in the absent
`malloc/counters.h`; they are modelled as unbounded integers. -/
structure Counters where
  MALLOCS : Int
  FREES : Int
  CALLOCS : Int
  REALLOCS : Int
  GROWS : Int
  SHRINKS : Int
  SPLITS : Int
  MERGES : Int
  BLOCKS : Int
  REQUESTED : Int
  HEAP_SIZE : Int

/-- The process heap: the program break, the four header fields of every block
(indexed by block address), the payload bytes (indexed by address) and the
counters. -/
structure Heap where
  brk : Nat
  capacity : Nat → Nat
  size : Nat → Nat
  prev : Nat → Nat
  next : Nat → Nat
  data : Nat → Nat
  counters : Counters

/-- Why a run did not return: a failed `assert`, or a list traversal that did
not come back to the list head within `Env.fuel` steps. -/
inductive Halt where
  | assertion
  | diverged
  deriving DecidableEq, Repr

/-- Store `v` at cell `a` of one memory component. -/
def upd (f : Nat → Nat) (a v : Nat) : Nat → Nat :=
  fun x => if x = a then v else f x

/-! ## Macros of `malloc/block.h` -/

/-- Modelled from the spec: the macro `ALIGN` of the absent `malloc/block.h`,
"rounded up to the alignment unit", evaluated in `size_t` arithmetic (the sum
`size + (ALIGNMENT - 1)` wraps modulo `2 ^ wordBits`). -/
def ALIGN (env : Env) (size : Nat) : Nat :=
  (size + (env.ALIGNMENT - 1)) % env.modulus / env.ALIGNMENT * env.ALIGNMENT

/-- Modelled from the spec: the failure sentinel `SBRK_FAILURE` of the heap
growth primitive, the maximum address value `(void *)-1`. -/
def SBRK_FAILURE (env : Env) : Nat := env.modulus - 1

/-- Address of the flexible array member: `block->data`. -/
def dataOf (env : Env) (block : Nat) : Nat := (block + env.HEADER) % env.modulus

/-- Modelled from the spec: the macro `BLOCK_FROM_POINTER` of the absent
`malloc/block.h`, "recovering the header from the pointer is a constant-offset
subtraction", evaluated in pointer-width arithmetic. -/
def BLOCK_FROM_POINTER (env : Env) (ptr : Nat) : Nat :=
  (ptr + (env.modulus - env.HEADER)) % env.modulus

/-- Conversion of a `size_t` value to `intptr_t` (two's complement). -/
def toIntptr (env : Env) (x : Nat) : Int :=
  if x % env.modulus < env.modulus / 2 then ((x % env.modulus : Nat) : Int)
  else ((x % env.modulus : Nat) : Int) - (env.modulus : Int)

/-! ## External collaborators -/

/-- The heap growth primitive `sbrk` (libc, external): a zero increment reports
the break; otherwise the operating system either moves the break and returns the
previous one, or refuses and returns the failure sentinel. -/
def sbrk (env : Env) (h : Heap) (increment : Int) : Nat × Heap :=
  if increment = 0 then (h.brk, h)
  else if env.sbrkOk h.brk increment = true then
    (h.brk, { h with brk := (h.brk + increment).toNat })
  else (SBRK_FAILURE env, h)

/-- Modelled from the spec: `init_counters` of the absent counter facility
("lazily initialized on first use"); the counter values themselves start at
zero with the process and are not changed by the initialisation. -/
def init_counters (h : Heap) : Heap := h

/-- The libc routine `memset(ptr, c, n)` on the payload bytes. -/
def memset (h : Heap) (ptr c n : Nat) : Heap :=
  { h with data := fun a => if ptr ≤ a ∧ a < ptr + n then c else h.data a }

/-! ## `block.c` -/

/-- Embedding of `block_allocate` (block.c:21). -/
def block_allocate (env : Env) (h : Heap) (size : Nat) : Nat × Heap :=
  let allocated : Int := toIntptr env ((env.HEADER + ALIGN env size) % env.modulus)
  let r := sbrk env h allocated
  let block := r.1
  if block = SBRK_FAILURE env then (0, r.2)
  else
    let h1 := { r.2 with capacity := upd r.2.capacity block (ALIGN env size) }
    let h2 := { h1 with size := upd h1.size block size }
    let h3 := { h2 with prev := upd h2.prev block block }
    let h4 := { h3 with next := upd h3.next block block }
    (block, { h4 with counters :=
      { h4.counters with
        HEAP_SIZE := h4.counters.HEAP_SIZE + allocated,
        BLOCKS := h4.counters.BLOCKS + 1,
        GROWS := h4.counters.GROWS + 1 } })

/-- Embedding of `block_release` (block.c:51). -/
def block_release (env : Env) (h : Heap) (block : Nat) : Bool × Heap :=
  if block = 0 then (false, h)
  else if h.capacity block < env.TRIM_THRESHOLD then (false, h)
  else
    let r0 := sbrk env h 0
    let top_heap := r0.1
    if top_heap ≠ (dataOf env block + r0.2.capacity block) % env.modulus then (false, r0.2)
    else
      let allocated := (env.HEADER + r0.2.capacity block) % env.modulus
      let r1 := sbrk env r0.2 (toIntptr env ((env.modulus - allocated) % env.modulus))
      if r1.1 = SBRK_FAILURE env then (false, r1.2)
      else
        (true, { r1.2 with counters :=
          { r1.2.counters with
            BLOCKS := r1.2.counters.BLOCKS - 1,
            SHRINKS := r1.2.counters.SHRINKS + 1,
            HEAP_SIZE := r1.2.counters.HEAP_SIZE - (allocated : Int) } })

/-- Embedding of `block_detach` (block.c:81). -/
def block_detach (h : Heap) (block : Nat) : Nat × Heap :=
  if block ≠ 0 then
    let before := h.prev block
    let after := h.next block
    let h1 := { h with next := upd h.next before (h.next block) }
    let h2 := { h1 with prev := upd h1.prev after (h1.prev block) }
    let h3 := { h2 with prev := upd h2.prev block block }
    let h4 := { h3 with next := upd h3.next block block }
    (block, h4)
  else (block, h)

/-- Embedding of `block_merge` (block.c:112). -/
def block_merge (env : Env) (h : Heap) (dst src : Nat) : Bool × Heap :=
  if (dataOf env dst + h.capacity dst) % env.modulus = src then
    let merged := (h.capacity dst + (env.HEADER + h.capacity src) % env.modulus) % env.modulus
    let h1 := { h with capacity := upd h.capacity dst merged }
    let h5 :=
      if h1.next dst = dst then
        let h2 := { h1 with next := upd h1.next (h1.prev src) dst }
        let h3 := { h2 with next := upd h2.next dst (h2.next src) }
        let h4 := { h3 with prev := upd h3.prev dst (h3.prev src) }
        { h4 with prev := upd h4.prev (h4.next src) dst }
      else h1
    (true, { h5 with counters :=
      { h5.counters with
        MERGES := h5.counters.MERGES + 1,
        BLOCKS := h5.counters.BLOCKS - 1 } })
  else (false, h)

/-- Embedding of `block_split` (block.c:147). -/
def block_split (env : Env) (h : Heap) (block size : Nat) : Nat × Heap :=
  if h.capacity block > (ALIGN env size + env.HEADER) % env.modulus then
    let split := (dataOf env block + ALIGN env size) % env.modulus
    let h1 := { h with prev := upd h.prev (h.next block) split }
    let h2 := { h1 with next := upd h1.next split (h1.next block) }
    let h3 := { h2 with prev := upd h2.prev split block }
    let rest := h3.capacity block - (ALIGN env size + env.HEADER) % env.modulus
    let h4 := { h3 with capacity := upd h3.capacity split rest }
    let h5 := { h4 with size := upd h4.size split (h4.capacity split) }
    let h6 := { h5 with next := upd h5.next block split }
    let h7 := { h6 with capacity := upd h6.capacity block (ALIGN env size) }
    let h8 := { h7 with size := upd h7.size block size }
    (block, { h8 with counters :=
      { h8.counters with
        SPLITS := h8.counters.SPLITS + 1,
        BLOCKS := h8.counters.BLOCKS + 1 } })
  else
    (block, { h with size := upd h.size block size })

/-! ## The free list (`freelist.c`, absent) -/

/-- Modelled from the spec: the traversal of `free_list_search`, first fit in
list order, "scans registered free blocks for one whose capacity ≥
aligned(size)"; `0` (NULL) when the head is reached. -/
def free_list_search_from (env : Env) (h : Heap) (size : Nat) : Nat → Nat → Except Halt Nat
  | 0, _ => .error .diverged
  | fuel + 1, curr =>
    if curr = env.FREELIST then .ok 0
    else if h.capacity curr ≥ ALIGN env size then .ok curr
    else free_list_search_from env h size fuel (h.next curr)

/-- Modelled from the spec: `free_list_search` of the absent `freelist.c`; the
free list is the circular doubly linked list through the head block at
`Env.FREELIST`. -/
def free_list_search (env : Env) (h : Heap) (size : Nat) : Except Halt Nat :=
  free_list_search_from env h size env.fuel (h.next env.FREELIST)

/-- Modelled from the spec: coalescing with the free physical successor,
`block_merge(block, curr)` tried against the list members in list order. -/
def free_list_merge_following (env : Env) (block : Nat) :
    Nat → Heap → Nat → Except Halt (Bool × Heap)
  | 0, _, _ => .error .diverged
  | fuel + 1, h, curr =>
    if curr = env.FREELIST then .ok (false, h)
    else
      let r := block_merge env h block curr
      if r.1 = true then .ok (true, r.2)
      else free_list_merge_following env block fuel r.2 (r.2.next curr)

/-- Modelled from the spec: coalescing with the free physical predecessor,
`block_merge(curr, block)` tried against the list members in list order. -/
def free_list_merge_preceding (env : Env) (block : Nat) :
    Nat → Heap → Nat → Except Halt (Bool × Heap)
  | 0, _, _ => .error .diverged
  | fuel + 1, h, curr =>
    if curr = env.FREELIST then .ok (false, h)
    else
      let r := block_merge env h curr block
      if r.1 = true then .ok (true, r.2)
      else free_list_merge_preceding env block fuel r.2 (r.2.next curr)

/-- Modelled from the spec: the splice of a block at the tail of the free
list. -/
def free_list_append (env : Env) (h : Heap) (block : Nat) : Heap :=
  let tail := h.prev env.FREELIST
  let h1 := { h with next := upd h.next block env.FREELIST }
  let h2 := { h1 with prev := upd h1.prev block tail }
  let h3 := { h2 with next := upd h2.next tail block }
  { h3 with prev := upd h3.prev env.FREELIST block }

/-- Modelled from the spec: `free_list_insert` of the absent `freelist.c`:
"attempts coalescing with both physical neighbors if they are themselves free;
after any coalescing, splices the (possibly enlarged) block into the list".
A block absorbed by its predecessor leaves the list position it may have
taken from its successor; a block that absorbed nothing and was not absorbed
is appended. -/
def free_list_insert (env : Env) (h : Heap) (block : Nat) : Except Halt Heap :=
  match free_list_merge_following env block env.fuel h (h.next env.FREELIST) with
  | .error e => .error e
  | .ok a =>
    match free_list_merge_preceding env block env.fuel a.2 (a.2.next env.FREELIST) with
    | .error e => .error e
    | .ok b =>
      if b.1 = true then .ok (block_detach b.2 block).2
      else if a.1 = true then .ok b.2
      else .ok (free_list_append env b.2 block)

/-! ## `posix.c` -/

/-- The four `assert`s of `malloc` (posix.c:41-44). -/
def malloc_asserts (h : Heap) (block size : Nat) : Bool :=
  decide (h.capacity block ≥ h.size block) && decide (h.size block = size) &&
    decide (h.next block = block) && decide (h.prev block = block)

/-- Embedding of `malloc` (posix.c:14).  The result is the returned pointer
(`0` is NULL) and the heap afterwards, or the reason why the call did not
return. -/
def malloc (env : Env) (h : Heap) (size : Nat) : Except Halt (Nat × Heap) :=
  let h0 := init_counters h
  if size = 0 then .ok (0, h0)
  else
    match free_list_search env h0 size with
    | .error e => .error e
    | .ok found =>
      let r :=
        if found = 0 then block_allocate env h0 size
        else
          let s := block_split env h0 found size
          block_detach s.2 s.1
      let block := r.1
      if block = 0 then .ok (0, r.2)
      else if malloc_asserts r.2 block size = true then
        .ok (dataOf env block, { r.2 with counters :=
          { r.2.counters with
            MALLOCS := r.2.counters.MALLOCS + 1,
            REQUESTED := r.2.counters.REQUESTED + (size : Int) } })
      else .error .assertion

/-- The heap with its `REALLOCS` counter incremented (posix.c:107). -/
def Heap.countRealloc (h : Heap) : Heap :=
  { h with counters := { h.counters with REALLOCS := h.counters.REALLOCS + 1 } }

/-- The heap with its `FREES` counter incremented (posix.c:64). -/
def Heap.countFree (h : Heap) : Heap :=
  { h with counters := { h.counters with FREES := h.counters.FREES + 1 } }

/-- Embedding of `free` (posix.c:58). -/
def free (env : Env) (h : Heap) (ptr : Nat) : Except Halt Heap :=
  if ptr = 0 then .ok h
  else
    let h1 := h.countFree
    let block := BLOCK_FROM_POINTER env ptr
    let r := block_release env h1 block
    if r.1 = false then free_list_insert env r.2 block
    else .ok r.2

/-- Embedding of `calloc` (posix.c:80). -/
def calloc (env : Env) (h : Heap) (nmemb size : Nat) : Except Halt (Nat × Heap) :=
  match malloc env h ((nmemb * size) % env.modulus) with
  | .error e => .error e
  | .ok r =>
    let block := r.1
    if block = 0 then .ok (0, r.2)
    else
      let h1 := memset r.2 block 0 ((nmemb * size) % env.modulus)
      .ok (block, { h1 with counters :=
        { h1.counters with CALLOCS := h1.counters.CALLOCS + 1 } })

/-- The copy loop of `realloc` (posix.c:124-128) after `n` further iterations:
`*curr = *prev; prev += 1; curr++`. -/
def realloc_copy (env : Env) : Nat → (Nat → Nat) → Nat → Nat → (Nat → Nat)
  | 0, data, _, _ => data
  | n + 1, data, curr, prev =>
    realloc_copy env n (upd data curr (data prev)) (curr + 1) ((prev + 1) % env.modulus)

/-- Number of iterations of `for (curr = block->data; curr < block->data + size;
curr++)`: `curr` runs from `block->data` up to the (wrapped) bound. -/
def realloc_iterations (env : Env) (block size : Nat) : Nat :=
  (dataOf env block + size) % env.modulus - dataOf env block

/-- Embedding of `realloc` (posix.c:103). -/
def realloc (env : Env) (h : Heap) (ptr size : Nat) : Except Halt (Nat × Heap) :=
  let h0 := h.countRealloc
  if ptr = 0 then malloc env h0 size
  else if size = 0 then
    match free env h0 ptr with
    | .error e => .error e
    | .ok h1 => .ok (0, h1)
  else
    let old_block := BLOCK_FROM_POINTER env ptr
    if h0.capacity old_block ≥ size then
      .ok (dataOf env old_block, { h0 with size := upd h0.size old_block size })
    else
      match malloc env h0 size with
      | .error e => .error e
      | .ok m =>
        let block := BLOCK_FROM_POINTER env m.1
        let n := realloc_iterations env block size
        let copied := realloc_copy env n m.2.data (dataOf env block) (dataOf env old_block)
        let h1 := { m.2 with data := copied }
        match free env h1 ptr with
        | .error e => .error e
        | .ok h2 => .ok (dataOf env block, h2)

/-! ## Concrete platform and heaps used to evaluate the code -/

/-- An LP64 platform: 64-bit words, 8-byte alignment, 32-byte header, trim
threshold 1024, the list head at address 4096, and an operating system that
grants every break between 65536 and 1114112. -/
def lp64 : Env where
  wordBits := 64
  ALIGNMENT := 8
  HEADER := 32
  TRIM_THRESHOLD := 1024
  FREELIST := 4096
  sbrkOk := fun b i => decide (65536 ≤ (b : Int) + i ∧ (b : Int) + i ≤ 1114112)
  fuel := 16

/-- The same platform with an operating system that refuses every change of
the break. -/
def lp64Full : Env := { lp64 with sbrkOk := fun _ _ => false }

/-- All counters zero. -/
def Counters.zero : Counters :=
  ⟨0, 0, 0, 0, 0, 0, 0, 0, 0, 0, 0⟩

/-- The heap of a fresh process: break at 65536, empty free list (the head is
linked to itself), all bytes zero. -/
def heap0 : Heap where
  brk := 65536
  capacity := fun _ => 0
  size := fun _ => 0
  prev := fun a => if a = 4096 then 4096 else 0
  next := fun a => if a = 4096 then 4096 else 0
  data := fun _ => 0
  counters := Counters.zero

/-- Platform sanity: the alignment unit is positive and divides the number of
`size_t` values, and a block header fits in the address space. -/
structure Env.WF (env : Env) : Prop where
  align_pos : 0 < env.ALIGNMENT
  align_dvd : env.ALIGNMENT ∣ env.modulus
  header_lt : env.HEADER < env.modulus


/-- The LP64 heap after `malloc(8)` on the fresh heap, the caller having
stored the byte 170 at the start of its block: one live block at 65536 with
data pointer 65568. -/
def heap1 : Heap where
  brk := 65576
  capacity := fun a => if a = 65536 then 8 else 0
  size := fun a => if a = 65536 then 8 else 0
  prev := fun a => if a = 65536 then 65536 else if a = 4096 then 4096 else 0
  next := fun a => if a = 65536 then 65536 else if a = 4096 then 4096 else 0
  data := fun a => if a = 65568 then 170 else 0
  counters := ⟨1, 0, 0, 0, 1, 0, 0, 0, 1, 8, 40⟩

/-- The heap left by a returning `malloc` (the heap itself if it does not
return). -/
def mallocHeap (env : Env) (h : Heap) (size : Nat) : Heap :=
  match malloc env h size with
  | .ok r => r.2
  | .error _ => h

/-- The heap left by a returning `free` (the heap itself if it does not
return). -/
def freeHeap (env : Env) (h : Heap) (ptr : Nat) : Heap :=
  match free env h ptr with
  | .ok g => g
  | .error _ => h

/-- An LP64 heap with a free block of capacity 64 at 65536, linked into the
free list, followed by a live block of capacity 8 at 65632 that ends at the
break 65672.  The live block starts with the byte 170; the free block still
holds a stale byte 85 at offset 8 of its data. -/
def heap2 : Heap where
  brk := 65672
  capacity := fun a => if a = 65536 then 64 else if a = 65632 then 8 else 0
  size := fun a => if a = 65536 then 64 else if a = 65632 then 8 else 0
  prev := fun a =>
    if a = 4096 then 65536 else if a = 65536 then 4096 else if a = 65632 then 65632 else 0
  next := fun a =>
    if a = 4096 then 65536 else if a = 65536 then 4096 else if a = 65632 then 65632 else 0
  data := fun a => if a = 65664 then 170 else if a = 65576 then 85 else 0
  counters := ⟨2, 1, 0, 0, 2, 0, 0, 0, 2, 72, 136⟩

/-- An LP64 heap with a detached block of capacity 8 at 65536 immediately
followed by a free block of capacity 16 at 65576, linked into the free
list; the break is 65624. -/
def heap3 : Heap where
  brk := 65624
  capacity := fun a => if a = 65536 then 8 else if a = 65576 then 16 else 0
  size := fun a => if a = 65536 then 8 else if a = 65576 then 16 else 0
  prev := fun a =>
    if a = 4096 then 65576 else if a = 65576 then 4096 else if a = 65536 then 65536 else 0
  next := fun a =>
    if a = 4096 then 65576 else if a = 65576 then 4096 else if a = 65536 then 65536 else 0
  data := fun _ => 0
  counters := ⟨2, 1, 0, 0, 2, 0, 0, 0, 2, 24, 88⟩

/-- An LP64 heap with a free block of capacity 2048 at 65536, linked into the
free list, followed by a live block of capacity 8 at 67616 that ends at the
break 67656. -/
def heap4 : Heap where
  brk := 67656
  capacity := fun a => if a = 65536 then 2048 else if a = 67616 then 8 else 0
  size := fun a => if a = 65536 then 2048 else if a = 67616 then 8 else 0
  prev := fun a =>
    if a = 4096 then 65536 else if a = 65536 then 4096 else if a = 67616 then 67616 else 0
  next := fun a =>
    if a = 4096 then 65536 else if a = 65536 then 4096 else if a = 67616 then 67616 else 0
  data := fun _ => 0
  counters := ⟨2, 1, 0, 0, 2, 0, 0, 0, 2, 2056, 2120⟩

/-- The addresses read through `prev` by the copy loop of `realloc`
(posix.c:124-128) in its next `n` iterations, in order. -/
def realloc_copy_reads (env : Env) : Nat → Nat → List Nat
  | 0, _ => []
  | n + 1, prev => prev :: realloc_copy_reads env n ((prev + 1) % env.modulus)

/-- The addresses written through `curr` by the copy loop of `realloc`
(posix.c:124-128) in its next `n` iterations, in order. -/
def realloc_copy_writes : Nat → Nat → List Nat
  | 0, _ => []
  | n + 1, curr => curr :: realloc_copy_writes n (curr + 1)

/-- The addresses of the old data region that a call `realloc(ptr, size)` reads
through `prev`, in order: the reads of the copy loop when the grow path is
taken, none on the other paths. -/
def realloc_reads (env : Env) (h : Heap) (ptr size : Nat) : Except Halt (List Nat) :=
  let h0 := h.countRealloc
  if ptr = 0 then .ok []
  else if size = 0 then .ok []
  else
    let old_block := BLOCK_FROM_POINTER env ptr
    if h0.capacity old_block ≥ size then .ok []
    else
      match malloc env h0 size with
      | .error e => .error e
      | .ok m =>
        let block := BLOCK_FROM_POINTER env m.1
        .ok (realloc_copy_reads env (realloc_iterations env block size) (dataOf env old_block))

/-- The addresses that a call `realloc(ptr, size)` writes through `curr`, in
order: the writes of the copy loop when the grow path is taken, none on the
other paths. -/
def realloc_writes (env : Env) (h : Heap) (ptr size : Nat) : Except Halt (List Nat) :=
  let h0 := h.countRealloc
  if ptr = 0 then .ok []
  else if size = 0 then .ok []
  else
    let old_block := BLOCK_FROM_POINTER env ptr
    if h0.capacity old_block ≥ size then .ok []
    else
      match malloc env h0 size with
      | .error e => .error e
      | .ok m =>
        let block := BLOCK_FROM_POINTER env m.1
        .ok (realloc_copy_writes (realloc_iterations env block size) (dataOf env block))

/-- The nodes `l` are doubly linked, in order, on the way from `a` to `z`:
every `next` link (map `nx`) leads to the following node and the `prev` link
(map `pv`) of that node leads back. -/
def Linked (nx pv : Nat → Nat) : Nat → List Nat → Nat → Prop
  | a, [], z => nx a = z ∧ pv z = a
  | a, x :: xs, z => nx a = x ∧ pv x = a ∧ Linked nx pv x xs z

/-- Whether a list of nodes is linked can be computed. -/
instance Linked.instDecidable (nx pv : Nat → Nat) :
    ∀ (l : List Nat) (a z : Nat), Decidable (Linked nx pv a l z)
  | [], a, z => inferInstanceAs (Decidable (nx a = z ∧ pv z = a))
  | x :: xs, a, z =>
    have := Linked.instDecidable nx pv xs x z
    inferInstanceAs (Decidable (nx a = x ∧ pv x = a ∧ Linked nx pv x xs z))

/-- The nodes `a :: l` form a circular doubly linked list of the heap, each
node once: from `a` the `next` links visit `l` in order and come back to `a`,
and the `prev` links lead the other way. -/
def Cycle (h : Heap) (a : Nat) (l : List Nat) : Prop :=
  (a :: l).Nodup ∧ Linked h.next h.prev a l a

/-- Whether nodes form a circular list can be computed. -/
instance Cycle.instDecidable (h : Heap) (a : Nat) (l : List Nat) : Decidable (Cycle h a l) :=
  inferInstanceAs (Decidable ((a :: l).Nodup ∧ Linked h.next h.prev a l a))

/-! ## Basic facts -/

theorem upd_same (f : Nat → Nat) (a v : Nat) : upd f a v a = v := by
  simp [upd]

theorem upd_other (f : Nat → Nat) {a x : Nat} (v : Nat) (hx : x ≠ a) : upd f a v x = f x := by
  simp [upd, hx]

theorem modulus_pos (env : Env) : 0 < env.modulus := by
  unfold Env.modulus; positivity

theorem lp64_wf : lp64.WF := by
  refine ⟨by decide, ?_, by decide⟩
  exact ⟨2 ^ 61, by decide⟩

theorem lp64Full_wf : lp64Full.WF := by
  refine ⟨by decide, ?_, by decide⟩
  exact ⟨2 ^ 61, by decide⟩

/-- Without wrap-around `ALIGN` is the round-up to the alignment unit. -/
theorem ALIGN_eq (env : Env) {size : Nat} (h : size + (env.ALIGNMENT - 1) < env.modulus) :
    ALIGN env size = (size + (env.ALIGNMENT - 1)) / env.ALIGNMENT * env.ALIGNMENT := by
  unfold ALIGN; rw [Nat.mod_eq_of_lt h]

theorem ALIGN_dvd (env : Env) (size : Nat) : env.ALIGNMENT ∣ ALIGN env size :=
  Dvd.intro_left _ rfl

theorem ALIGN_ge (env : Env) (hA : 0 < env.ALIGNMENT) {size : Nat}
    (h : size + (env.ALIGNMENT - 1) < env.modulus) : size ≤ ALIGN env size := by
  rw [ALIGN_eq env h]
  have h1 := Nat.div_add_mod (size + (env.ALIGNMENT - 1)) env.ALIGNMENT
  have h2 := Nat.mod_lt (size + (env.ALIGNMENT - 1)) hA
  rw [Nat.mul_comm] at h1
  omega

theorem ALIGN_lt (env : Env) (hA : 0 < env.ALIGNMENT) {size : Nat}
    (h : size + (env.ALIGNMENT - 1) < env.modulus) : ALIGN env size < size + env.ALIGNMENT := by
  rw [ALIGN_eq env h]
  have h1 := Nat.div_mul_le_self (size + (env.ALIGNMENT - 1)) env.ALIGNMENT
  omega

theorem ALIGN_mono (env : Env) {s t : Nat} (hst : s ≤ t)
    (h : t + (env.ALIGNMENT - 1) < env.modulus) : ALIGN env s ≤ ALIGN env t := by
  rw [ALIGN_eq env h, ALIGN_eq env (by omega)]
  exact Nat.mul_le_mul_right _ (Nat.div_le_div_right (by omega))

/-- When the rounded-up sum wraps, `ALIGN` falls below the request. -/
theorem ALIGN_wrap_lt (env : Env) (hwf : env.WF) {size : Nat} (hs : size < env.modulus)
    (h : env.modulus ≤ size + (env.ALIGNMENT - 1)) : ALIGN env size < size := by
  have hA := hwf.align_pos
  have hAM : env.ALIGNMENT ≤ env.modulus := Nat.le_of_dvd (modulus_pos env) hwf.align_dvd
  have hmod : (size + (env.ALIGNMENT - 1)) % env.modulus = size + (env.ALIGNMENT - 1) - env.modulus := by
    rw [Nat.mod_eq_sub_mod h, Nat.mod_eq_of_lt (by omega)]
  unfold ALIGN
  rw [hmod]
  have h1 := Nat.div_mul_le_self (size + (env.ALIGNMENT - 1) - env.modulus) env.ALIGNMENT
  omega

theorem dataOf_lt (env : Env) (block : Nat) : dataOf env block < env.modulus :=
  Nat.mod_lt _ (modulus_pos env)

/-- The header is recovered from the data pointer of a block. -/
theorem BLOCK_FROM_POINTER_dataOf (env : Env) (hwf : env.WF) {block : Nat}
    (hb : block < env.modulus) : BLOCK_FROM_POINTER env (dataOf env block) = block := by
  have hH := hwf.header_lt
  unfold BLOCK_FROM_POINTER dataOf
  rw [Nat.mod_add_mod]
  have : block + env.HEADER + (env.modulus - env.HEADER) = block + env.modulus := by omega
  rw [this, Nat.add_mod_right, Nat.mod_eq_of_lt hb]

/-- The data pointer is recovered from the header address. -/
theorem dataOf_BLOCK_FROM_POINTER (env : Env) (hwf : env.WF) {ptr : Nat}
    (hp : ptr < env.modulus) : dataOf env (BLOCK_FROM_POINTER env ptr) = ptr := by
  have hH := hwf.header_lt
  unfold BLOCK_FROM_POINTER dataOf
  rw [Nat.mod_add_mod]
  have : ptr + (env.modulus - env.HEADER) + env.HEADER = ptr + env.modulus := by omega
  rw [this, Nat.add_mod_right, Nat.mod_eq_of_lt hp]

/-! ## Free list and block-engine facts used by the claims -/

theorem free_list_search_empty (env : Env) (h : Heap) (size : Nat)
    (hfuel : 1 ≤ env.fuel) (hempty : h.next env.FREELIST = env.FREELIST) :
    free_list_search env h size = .ok 0 := by
  obtain ⟨f, hf⟩ : ∃ f, env.fuel = f + 1 := ⟨env.fuel - 1, by omega⟩
  simp [free_list_search, hf, hempty, free_list_search_from]

theorem block_allocate_fail (env : Env) (h : Heap) (size : Nat)
    (hs : sbrk env h (toIntptr env ((env.HEADER + ALIGN env size) % env.modulus))
      = (SBRK_FAILURE env, h)) :
    block_allocate env h size = (0, h) := by
  simp [block_allocate, hs]

/-! ## The `REALLOCS` counter is never read -/

theorem sbrk_countRealloc (env : Env) (h : Heap) (i : Int) :
    sbrk env h.countRealloc i = ((sbrk env h i).1, (sbrk env h i).2.countRealloc) := by
  unfold sbrk
  split_ifs <;> first | rfl | simp_all [Heap.countRealloc]

theorem block_allocate_countRealloc (env : Env) (h : Heap) (size : Nat) :
    block_allocate env h.countRealloc size
      = ((block_allocate env h size).1, (block_allocate env h size).2.countRealloc) := by
  unfold block_allocate
  simp only [sbrk_countRealloc]
  split_ifs <;> rfl

theorem block_release_countRealloc (env : Env) (h : Heap) (block : Nat) :
    block_release env h.countRealloc block
      = ((block_release env h block).1, (block_release env h block).2.countRealloc) := by
  unfold block_release
  simp only [sbrk_countRealloc]
  split_ifs <;> first | rfl | (exfalso; simp_all [Heap.countRealloc, sbrk])

theorem block_detach_countRealloc (h : Heap) (block : Nat) :
    block_detach h.countRealloc block
      = ((block_detach h block).1, (block_detach h block).2.countRealloc) := by
  unfold block_detach
  split_ifs <;> rfl

theorem block_merge_countRealloc (env : Env) (h : Heap) (dst src : Nat) :
    block_merge env h.countRealloc dst src
      = ((block_merge env h dst src).1, (block_merge env h dst src).2.countRealloc) := by
  by_cases hadj : (dataOf env dst + h.capacity dst) % env.modulus = src
  · by_cases hlink : h.next dst = dst
    · simp [block_merge, Heap.countRealloc, hadj, hlink]
    · simp [block_merge, Heap.countRealloc, hadj, hlink]
  · simp [block_merge, Heap.countRealloc, hadj]

theorem block_split_countRealloc (env : Env) (h : Heap) (block size : Nat) :
    block_split env h.countRealloc block size
      = ((block_split env h block size).1, (block_split env h block size).2.countRealloc) := by
  unfold block_split
  split_ifs <;> first | rfl | (exfalso; simp_all [Heap.countRealloc])
theorem free_list_search_from_countRealloc (env : Env) (h : Heap) (size : Nat) :
    ∀ fuel curr, free_list_search_from env h.countRealloc size fuel curr
      = free_list_search_from env h size fuel curr := by
  intro fuel
  induction fuel with
  | zero => intro curr; rfl
  | succ n ih =>
    intro curr
    simp only [free_list_search_from, ih]
    rfl

theorem free_list_merge_following_countRealloc (env : Env) (block : Nat) :
    ∀ fuel h curr, free_list_merge_following env block fuel h.countRealloc curr
      = (free_list_merge_following env block fuel h curr).map
          (fun r => (r.1, r.2.countRealloc)) := by
  intro fuel
  induction fuel with
  | zero => intro h curr; rfl
  | succ n ih =>
    intro h curr
    simp only [free_list_merge_following, block_merge_countRealloc]
    by_cases hc : curr = env.FREELIST
    · simp [hc, Except.map]
    · by_cases hm : (block_merge env h block curr).1 = true
      · simp [hc, hm, Except.map]
      · simp only [hc, hm, if_false, Bool.false_eq_true]
        exact ih _ _

theorem free_list_merge_preceding_countRealloc (env : Env) (block : Nat) :
    ∀ fuel h curr, free_list_merge_preceding env block fuel h.countRealloc curr
      = (free_list_merge_preceding env block fuel h curr).map
          (fun r => (r.1, r.2.countRealloc)) := by
  intro fuel
  induction fuel with
  | zero => intro h curr; rfl
  | succ n ih =>
    intro h curr
    simp only [free_list_merge_preceding, block_merge_countRealloc]
    by_cases hc : curr = env.FREELIST
    · simp [hc, Except.map]
    · by_cases hm : (block_merge env h curr block).1 = true
      · simp [hc, hm, Except.map]
      · simp only [hc, hm, if_false, Bool.false_eq_true]
        exact ih _ _

theorem free_list_insert_countRealloc (env : Env) (h : Heap) (block : Nat) :
    free_list_insert env h.countRealloc block
      = (free_list_insert env h block).map Heap.countRealloc := by
  unfold free_list_insert
  have hn : h.countRealloc.next env.FREELIST = h.next env.FREELIST := rfl
  rw [hn, free_list_merge_following_countRealloc]
  cases ha : free_list_merge_following env block env.fuel h (h.next env.FREELIST) with
  | error e => rfl
  | ok a =>
    simp only [Except.map]
    have hn2 : a.2.countRealloc.next env.FREELIST = a.2.next env.FREELIST := rfl
    rw [hn2, free_list_merge_preceding_countRealloc]
    cases hb : free_list_merge_preceding env block env.fuel a.2 (a.2.next env.FREELIST) with
    | error e => rfl
    | ok b =>
      simp only [Except.map]
      split_ifs
      · rw [block_detach_countRealloc]
      · rfl
      · rfl

theorem free_countRealloc (env : Env) (h : Heap) (ptr : Nat) :
    free env h.countRealloc ptr = (free env h ptr).map Heap.countRealloc := by
  unfold free
  by_cases hp : ptr = 0
  · simp [hp, Except.map]
  · simp only [hp, if_false]
    have hc : h.countRealloc.countFree = h.countFree.countRealloc := rfl
    rw [hc, block_release_countRealloc]
    split_ifs
    · rw [free_list_insert_countRealloc]
    · rfl

theorem malloc_countRealloc (env : Env) (h : Heap) (size : Nat) :
    malloc env h.countRealloc size
      = (malloc env h size).map (fun r => (r.1, r.2.countRealloc)) := by
  unfold malloc free_list_search init_counters
  by_cases hs : size = 0
  · simp [hs, Except.map]
  · simp only [hs, if_false]
    have hn : h.countRealloc.next env.FREELIST = h.next env.FREELIST := rfl
    rw [hn, free_list_search_from_countRealloc]
    cases hf : free_list_search_from env h size env.fuel (h.next env.FREELIST) with
    | error e => rfl
    | ok found =>
      have ha : ∀ (g : Heap) (b s : Nat),
          malloc_asserts g.countRealloc b s = malloc_asserts g b s := fun _ _ _ => rfl
      simp only [Except.map]
      by_cases h0 : found = 0
      · simp only [h0, if_true, block_allocate_countRealloc, ha]
        split_ifs <;> rfl
      · simp only [h0, if_false, block_split_countRealloc, block_detach_countRealloc, ha]
        split_ifs <;> rfl

/-! ## Post-condition of a returning `malloc` -/

/-- A `malloc` that returns a non-null pointer returns the data pointer of a
block that passed the four assertions. -/
theorem malloc_post (env : Env) (h : Heap) (size p : Nat) (hm : Heap)
    (hmal : malloc env h size = .ok (p, hm)) (hp : p ≠ 0) :
    ∃ b, b ≠ 0 ∧ p = dataOf env b ∧ hm.size b = size ∧ size ≤ hm.capacity b ∧
      hm.next b = b ∧ hm.prev b = b := by
  unfold malloc at hmal
  by_cases hs : size = 0
  · simp [hs] at hmal; omega
  · simp only [hs, if_false] at hmal
    cases hf : free_list_search env (init_counters h) size with
    | error e => simp [hf] at hmal
    | ok found =>
      simp only [hf] at hmal
      by_cases hfound : found = 0
      all_goals
        simp only [hfound, if_true, if_false] at hmal
        split_ifs at hmal with hb ha
        · simp at hmal; omega
        · simp only [Except.ok.injEq, Prod.mk.injEq] at hmal
          obtain ⟨hp1, hh⟩ := hmal
          simp only [malloc_asserts, Bool.and_eq_true, decide_eq_true_eq] at ha
          obtain ⟨⟨⟨h1, h2⟩, h3⟩, h4⟩ := ha
          refine ⟨_, hb, hp1.symm, ?_, ?_, ?_, ?_⟩ <;> rw [← hh]
          · exact h2
          · show size ≤ _
            rw [h2] at h1; exact h1
          · exact h3
          · exact h4

/-- The example heap `heap1` is the fresh heap after `malloc(8)`, up to the
byte the caller stored. -/
theorem malloc_heap0_eq_heap1 :
    malloc lp64 heap0 8 = .ok (65568, { heap1 with data := heap0.data }) := rfl

/-! ## The payload bytes are written only by `calloc` and `realloc` -/

/-- The loop writes no byte at or above its final destination pointer. -/
theorem realloc_copy_above (env : Env) :
    ∀ n data curr prev x, curr + n ≤ x → realloc_copy env n data curr prev x = data x := by
  intro n
  induction n with
  | zero => intro data curr prev x _; rfl
  | succ n ih =>
    intro data curr prev x hx
    simp only [realloc_copy]
    rw [ih _ _ _ _ (by omega), upd_other _ _ (by omega)]

theorem sbrk_fst (env : Env) (h : Heap) (i : Int) :
    (sbrk env h i).1 = h.brk ∨ (sbrk env h i).1 = SBRK_FAILURE env := by
  unfold sbrk; split_ifs <;> simp

theorem sbrk_fields (env : Env) (h : Heap) (i : Int) :
    (sbrk env h i).2.capacity = h.capacity ∧ (sbrk env h i).2.size = h.size ∧
    (sbrk env h i).2.prev = h.prev ∧ (sbrk env h i).2.next = h.next ∧
    (sbrk env h i).2.counters = h.counters := by
  unfold sbrk; split_ifs <;> simp

/-- The header fields after a successful `block_allocate`. -/
theorem block_allocate_fields (env : Env) (h : Heap) (size : Nat)
    (hb : (block_allocate env h size).1 ≠ 0) :
    (block_allocate env h size).1 = h.brk ∧
    (block_allocate env h size).2.capacity = upd h.capacity h.brk (ALIGN env size) ∧
    (block_allocate env h size).2.size = upd h.size h.brk size ∧
    (block_allocate env h size).2.prev = upd h.prev h.brk h.brk ∧
    (block_allocate env h size).2.next = upd h.next h.brk h.brk := by
  simp only [block_allocate] at hb ⊢
  split_ifs at hb ⊢ with hf
  · simp at hb
  · have hfst := (sbrk_fst env h
      (toIntptr env ((env.HEADER + ALIGN env size) % env.modulus))).resolve_right hf
    obtain ⟨h1, h2, h3, h4, -⟩ := sbrk_fields env h
      (toIntptr env ((env.HEADER + ALIGN env size) % env.modulus))
    simp only [hfst, h1, h2, h3, h4, and_self]

/-- `block_release` writes no header field. -/
theorem block_release_fields (env : Env) (h : Heap) (block : Nat) :
    (block_release env h block).2.capacity = h.capacity ∧
    (block_release env h block).2.size = h.size ∧
    (block_release env h block).2.prev = h.prev ∧
    (block_release env h block).2.next = h.next := by
  simp only [block_release]
  split_ifs <;> simp [sbrk_fields]

/-- A successful `block_release` increments `SHRINKS`. -/
theorem block_release_true_shrinks (env : Env) (h : Heap) (block : Nat)
    (ht : (block_release env h block).1 = true) :
    (block_release env h block).2.counters.SHRINKS = h.counters.SHRINKS + 1 := by
  simp only [block_release] at ht ⊢
  split_ifs at ht ⊢
  simp [sbrk_fields]

/-- A failed `block_release` changes no counter. -/
theorem block_release_false_counters (env : Env) (h : Heap) (block : Nat)
    (ht : (block_release env h block).1 = false) :
    (block_release env h block).2.counters = h.counters := by
  simp only [block_release] at ht ⊢
  split_ifs at ht ⊢ <;> simp_all [sbrk_fields]

/-- Inserting into an empty free list appends the block. -/
theorem free_list_insert_empty (env : Env) (h : Heap) (block : Nat)
    (hfuel : 1 ≤ env.fuel) (hempty : h.next env.FREELIST = env.FREELIST) :
    free_list_insert env h block = .ok (free_list_append env h block) := by
  obtain ⟨f, hf⟩ : ∃ f, env.fuel = f + 1 := ⟨env.fuel - 1, by omega⟩
  simp [free_list_insert, hf, hempty, free_list_merge_following, free_list_merge_preceding]

/-- The block handed out by `malloc` from the free list: after `block_split`
and `block_detach` it passes the four assertions whenever its capacity covers
the aligned request and the aligned request covers the request. -/
theorem block_split_detach_post (env : Env) (g : Heap) (b size : Nat) (hb : b ≠ 0)
    (hfit : ALIGN env size ≤ g.capacity b) (hal : size ≤ ALIGN env size) :
    (block_detach (block_split env g b size).2 (block_split env g b size).1).1 = b ∧
    (block_detach (block_split env g b size).2 (block_split env g b size).1).2.size b = size ∧
    size ≤ (block_detach (block_split env g b size).2
      (block_split env g b size).1).2.capacity b ∧
    (block_detach (block_split env g b size).2 (block_split env g b size).1).2.capacity b
      ≤ g.capacity b ∧
    (block_detach (block_split env g b size).2 (block_split env g b size).1).2.next b = b ∧
    (block_detach (block_split env g b size).2 (block_split env g b size).1).2.prev b = b ∧
    (block_detach (block_split env g b size).2 (block_split env g b size).1).2.brk = g.brk ∧
    (block_detach (block_split env g b size).2 (block_split env g b size).1).2.counters.GROWS
      = g.counters.GROWS := by
  have h1 : (block_split env g b size).1 = b := by
    simp only [block_split]; split_ifs <;> rfl
  rw [h1]
  simp only [block_detach, hb, ne_eq, not_false_eq_true, if_true, upd_same]
  simp only [block_split]
  split_ifs with hsp
  · simp [upd_same, hal, hfit]
  · simp only [upd_same, true_and, and_true]
    exact ⟨le_trans hal hfit, le_refl _⟩

/-! ## Fresh blocks when the rounding does not wrap -/

/-- Without wrap-around `ALIGN size` is the least multiple of the alignment
unit that is `≥ size`. -/
theorem ALIGN_least (env : Env) (hA : 0 < env.ALIGNMENT) {size m : Nat}
    (h : size + (env.ALIGNMENT - 1) < env.modulus) (hm : env.ALIGNMENT ∣ m) (hsm : size ≤ m) :
    ALIGN env size ≤ m := by
  obtain ⟨k, rfl⟩ := hm
  rw [ALIGN_eq env h, Nat.mul_comm env.ALIGNMENT k]
  apply Nat.mul_le_mul_right
  rw [Nat.div_le_iff_le_mul_add_pred hA]
  omega

/-- A fresh block for a request that `ALIGN` rounds without wrap-around: its
capacity is the least multiple of the alignment unit covering the request, it is
detached, and it passes the assertions of `malloc`. -/
theorem block_allocate_post (env : Env) (hwf : env.WF) (h : Heap) (size : Nat)
    (hnw : size + (env.ALIGNMENT - 1) < env.modulus)
    (hb : (block_allocate env h size).1 ≠ 0) :
    (block_allocate env h size).2.capacity (block_allocate env h size).1 = ALIGN env size ∧
    size ≤ ALIGN env size ∧ env.ALIGNMENT ∣ ALIGN env size ∧
    (∀ m, env.ALIGNMENT ∣ m → size ≤ m → ALIGN env size ≤ m) ∧
    (block_allocate env h size).2.size (block_allocate env h size).1 = size ∧
    (block_allocate env h size).2.next (block_allocate env h size).1
      = (block_allocate env h size).1 ∧
    (block_allocate env h size).2.prev (block_allocate env h size).1
      = (block_allocate env h size).1 ∧
    malloc_asserts (block_allocate env h size).2 (block_allocate env h size).1 size = true := by
  obtain ⟨h1, h2, h3, h4, h5⟩ := block_allocate_fields env h size hb
  have hge := ALIGN_ge env hwf.align_pos hnw
  simp only [malloc_asserts, Bool.and_eq_true, decide_eq_true_eq]
  rw [h1, h2, h3, h4, h5]
  simp only [upd_same, and_self, and_true, true_and]
  exact ⟨hge, ALIGN_dvd env size,
    fun m hm hsm => ALIGN_least env hwf.align_pos hnw hm hsm, hge⟩

/-- No `size_t` value is a multiple of the alignment unit that covers the
largest request `SIZE_MAX`: whatever `ALIGN` computes, a block returned for
that request has a capacity below it. -/
theorem size_max_not_alignable (env : Env) (hwf : env.WF) (hA : 2 ≤ env.ALIGNMENT)
    {c : Nat} (hc : c < env.modulus) (hd : env.ALIGNMENT ∣ c) : c < env.modulus - 1 := by
  by_contra hge
  have hce : c + 1 = env.modulus := by omega
  have h1 : env.ALIGNMENT ∣ 1 := by
    have hm := hwf.align_dvd
    rw [← hce] at hm
    exact (Nat.dvd_add_right hd).mp hm
  have := Nat.le_of_dvd (by decide) h1
  omega

/-! ## Trimming -/

/-- The negated extent of a block, as the `intptr_t` argument of `sbrk`. -/
theorem toIntptr_neg (env : Env) {a : Nat} (ha : 0 < a) (hlt : a < env.modulus)
    (hs : a ≤ env.modulus / 2) :
    toIntptr env ((env.modulus - a % env.modulus) % env.modulus) = -(a : Int) := by
  have h1 : a % env.modulus = a := Nat.mod_eq_of_lt hlt
  have h2 : (env.modulus - a) % env.modulus = env.modulus - a := Nat.mod_eq_of_lt (by omega)
  unfold toIntptr
  rw [h1, h2, h2]
  have h3 : ¬ (env.modulus - a < env.modulus / 2) := by omega
  rw [if_neg h3]
  omega

/-- A granted non-zero `sbrk` moves the break and returns the previous one. -/
theorem sbrk_granted (env : Env) (h : Heap) (i : Int) (hi : i ≠ 0)
    (hg : env.sbrkOk h.brk i = true) :
    sbrk env h i = (h.brk, { h with brk := (h.brk + i).toNat }) := by
  simp [sbrk, hi, hg]

theorem sbrk_zero (env : Env) (h : Heap) : sbrk env h 0 = (h.brk, h) := by
  simp [sbrk]

/-! ## Splitting -/

/-- A capacity that is a multiple of the alignment unit covers the aligned
size of every request it covers, and that request is rounded without
wrap-around. -/
theorem ALIGN_le_capacity (env : Env) (hwf : env.WF) {size cap : Nat}
    (hcap : cap < env.modulus) (hmul : env.ALIGNMENT ∣ cap) (hsz : size ≤ cap) :
    size + (env.ALIGNMENT - 1) < env.modulus ∧ size ≤ ALIGN env size ∧
      ALIGN env size ≤ cap := by
  have hA := hwf.align_pos
  have hsub : env.ALIGNMENT ∣ env.modulus - cap := Nat.dvd_sub' hwf.align_dvd hmul
  have hle : env.ALIGNMENT ≤ env.modulus - cap := Nat.le_of_dvd (by omega) hsub
  have hnw : size + (env.ALIGNMENT - 1) < env.modulus := by omega
  exact ⟨hnw, ALIGN_ge env hA hnw, ALIGN_least env hA hnw hmul hsz⟩

/-! ## Detaching -/

theorem upd_self (f : Nat → Nat) (a : Nat) : upd f a (f a) = f := by
  funext x
  unfold upd
  split_ifs with hx
  · rw [hx]
  · rfl

/-- Detaching a detached block changes nothing. -/
theorem block_detach_detached (h : Heap) (block : Nat) (hp : h.prev block = block)
    (hn : h.next block = block) : block_detach h block = (block, h) := by
  unfold block_detach
  split_ifs with hb
  · simp only [hp, hn]
    have h1 : upd h.next block block = h.next := by
      have := upd_self h.next block; rw [hn] at this; exact this
    have h2 : upd h.prev block block = h.prev := by
      have := upd_self h.prev block; rw [hp] at this; exact this
    simp only [h1, h2]
  · rfl

/-- After `block_detach` a non-null block is linked to itself. -/
theorem block_detach_self (h : Heap) (block : Nat) (hb : block ≠ 0) :
    (block_detach h block).1 = block ∧ (block_detach h block).2.prev block = block ∧
      (block_detach h block).2.next block = block := by
  simp [block_detach, hb, upd_same]

/-- A `sbrk` that returns the failure sentinel, at a break that is not the
sentinel, has left the heap alone. -/
theorem sbrk_fail_unchanged (env : Env) (h : Heap) (i : Int) (hsent : h.brk ≠ SBRK_FAILURE env)
    (hf : (sbrk env h i).1 = SBRK_FAILURE env) : (sbrk env h i).2 = h := by
  unfold sbrk at hf ⊢
  split_ifs at hf ⊢ with h0 hg
  · rfl
  · exact absurd hf hsent
  · rfl

/-! ## Capacities stay aligned -/

theorem dvd_upd (k : Nat) (f : Nat → Nat) (a v : Nat) (hf : ∀ b, k ∣ f b) (hv : k ∣ v) :
    ∀ b, k ∣ upd f a v b := by
  intro b
  unfold upd
  split_ifs
  · exact hv
  · exact hf b

theorem dvd_wrap (env : Env) (hwf : env.WF) {x : Nat} (hx : env.ALIGNMENT ∣ x) :
    env.ALIGNMENT ∣ x % env.modulus :=
  (Nat.dvd_mod_iff hwf.align_dvd).mpr hx

/-! ## What the copy loop of `realloc` reads and writes -/

/-- The traces list exactly the accesses of the copy loop: running the loop is
performing, pair by pair, the store of the byte read at the traced source
address to the traced destination address. -/
theorem realloc_copy_eq_trace (env : Env) :
    ∀ n data curr prev, realloc_copy env n data curr prev
      = ((realloc_copy_writes n curr).zip (realloc_copy_reads env n prev)).foldl
          (fun d wr => upd d wr.1 (d wr.2)) data := by
  intro n
  induction n with
  | zero => intro data curr prev; rfl
  | succ n ih =>
    intro data curr prev
    simp only [realloc_copy, realloc_copy_writes, realloc_copy_reads, List.zip_cons_cons,
      List.foldl_cons]
    exact ih _ _ _

theorem realloc_copy_reads_length (env : Env) :
    ∀ n prev, (realloc_copy_reads env n prev).length = n := by
  intro n
  induction n with
  | zero => intro prev; rfl
  | succ n ih => intro prev; simp [realloc_copy_reads, ih]

/-- Inside the address space the loop reads the `n` consecutive addresses from
`prev` on. -/
theorem realloc_copy_reads_range (env : Env) :
    ∀ n prev, prev + n ≤ env.modulus → realloc_copy_reads env n prev = List.range' prev n := by
  intro n
  induction n with
  | zero => intro prev _; rfl
  | succ n ih =>
    intro prev hp
    simp only [realloc_copy_reads, List.range'_succ]
    by_cases hn : n = 0
    · subst hn; rfl
    · rw [Nat.mod_eq_of_lt (by omega), ih _ (by omega)]

theorem realloc_copy_writes_range : ∀ n curr, realloc_copy_writes n curr = List.range' curr n := by
  intro n
  induction n with
  | zero => intro curr; rfl
  | succ n ih => intro curr; simp only [realloc_copy_writes, List.range'_succ, ih]

/-- On the grow path, with the old and new data regions inside the address
space, `realloc` reads the `size` bytes at `ptr`, `ptr + 1`, …, `ptr + size - 1`
and writes the `size` bytes of the new region, whatever the old size and
capacity are. -/
theorem realloc_grow_accesses (env : Env) (hwf : env.WF) (h : Heap) (ptr size q : Nat)
    (hm : Heap) (hptr : ptr ≠ 0) (hgrow : h.capacity (BLOCK_FROM_POINTER env ptr) < size)
    (hmal : malloc env h.countRealloc size = .ok (q, hm))
    (hold : ptr + size ≤ env.modulus) (hnew : q + size < env.modulus) :
    realloc_reads env h ptr size = .ok (List.range' ptr size) ∧
    realloc_writes env h ptr size = .ok (List.range' q size) := by
  have hsize : size ≠ 0 := by omega
  have hdq : dataOf env (BLOCK_FROM_POINTER env q) = q :=
    dataOf_BLOCK_FROM_POINTER env hwf (by omega)
  have hdp : dataOf env (BLOCK_FROM_POINTER env ptr) = ptr :=
    dataOf_BLOCK_FROM_POINTER env hwf (by omega)
  have hit : realloc_iterations env (BLOCK_FROM_POINTER env q) size = size := by
    unfold realloc_iterations
    rw [hdq, Nat.mod_eq_of_lt hnew]; omega
  have hncap : ¬ (h.countRealloc.capacity (BLOCK_FROM_POINTER env ptr) ≥ size) := by
    show ¬ (h.capacity (BLOCK_FROM_POINTER env ptr) ≥ size)
    omega
  constructor
  · simp only [realloc_reads, hptr, hsize, if_false, if_neg hncap, hmal, hdp, hit]
    rw [realloc_copy_reads_range env size ptr hold]
  · simp only [realloc_writes, hptr, hsize, if_false, if_neg hncap, hmal, hdq, hit]
    rw [realloc_copy_writes_range]

/-! ## Circular doubly linked lists -/

theorem linked_append (nx pv : Nat → Nat) (b z : Nat) (l2 : List Nat) :
    ∀ (l1 : List Nat) (a : Nat), Linked nx pv a (l1 ++ b :: l2) z ↔
      Linked nx pv a l1 b ∧ Linked nx pv b l2 z := by
  intro l1
  induction l1 with
  | nil =>
    intro a
    show Linked nx pv a (b :: l2) z ↔ (nx a = b ∧ pv b = a) ∧ Linked nx pv b l2 z
    simp only [Linked]
    tauto
  | cons x xs ih =>
    intro a
    show (nx a = x ∧ pv x = a ∧ Linked nx pv x (xs ++ b :: l2) z) ↔
      (nx a = x ∧ pv x = a ∧ Linked nx pv x xs b) ∧ Linked nx pv b l2 z
    rw [ih x]
    tauto

/-- Links that are not touched stay linked. -/
theorem linked_frame (nx pv nx' pv' : Nat → Nat) (z : Nat) :
    ∀ (l : List Nat) (a : Nat), Linked nx pv a l z →
      (∀ n ∈ a :: l, nx' n = nx n) → (∀ n ∈ l ++ [z], pv' n = pv n) →
      Linked nx' pv' a l z := by
  intro l
  induction l with
  | nil =>
    intro a hl hn hp
    simp only [Linked] at hl ⊢
    rw [hn a (by simp), hp z (by simp)]
    exact hl
  | cons x xs ih =>
    intro a hl hn hp
    simp only [Linked] at hl ⊢
    refine ⟨by rw [hn a (by simp)]; exact hl.1, by rw [hp x (by simp)]; exact hl.2.1, ?_⟩
    exact ih x hl.2.2 (fun n hm => hn n (List.mem_cons_of_mem _ hm))
      (fun n hm => hp n (by simp only [List.cons_append, List.mem_cons]; exact Or.inr hm))

/-- The predecessor of every node reached (and of the end point) is a node of
the path. -/
theorem linked_prev_mem (nx pv : Nat → Nat) (z : Nat) :
    ∀ (l : List Nat) (a : Nat), Linked nx pv a l z → ∀ n ∈ l ++ [z], pv n ∈ a :: l := by
  intro l
  induction l with
  | nil =>
    intro a hl n hn
    simp only [Linked] at hl
    simp only [List.nil_append, List.mem_singleton] at hn
    rw [hn, hl.2]; simp
  | cons x xs ih =>
    intro a hl n hn
    simp only [Linked] at hl
    simp only [List.cons_append, List.mem_cons] at hn
    rcases hn with rfl | hn
    · rw [hl.2.1]; simp
    · exact List.mem_cons_of_mem _ (ih x hl.2.2 n hn)

/-- The successor of every node of the path is a later node or the end point. -/
theorem linked_next_mem (nx pv : Nat → Nat) (z : Nat) :
    ∀ (l : List Nat) (a : Nat), Linked nx pv a l z → ∀ n ∈ a :: l, nx n ∈ l ++ [z] := by
  intro l
  induction l with
  | nil =>
    intro a hl n hn
    simp only [Linked] at hl
    simp only [List.mem_singleton] at hn
    rw [hn, hl.1]; simp
  | cons x xs ih =>
    intro a hl n hn
    simp only [Linked] at hl
    simp only [List.mem_cons] at hn
    rcases hn with rfl | hn
    · rw [hl.1]; simp
    · have := ih x hl.2.2 n (by simpa using hn)
      simp only [List.cons_append, List.mem_cons]
      exact Or.inr this

theorem linked_prev_next (nx pv : Nat → Nat) (z : Nat) :
    ∀ (l : List Nat) (a : Nat), Linked nx pv a l z → ∀ n ∈ a :: l, pv (nx n) = n := by
  intro l
  induction l with
  | nil =>
    intro a hl n hn
    simp only [Linked] at hl
    simp only [List.mem_singleton] at hn
    rw [hn, hl.1, hl.2]
  | cons x xs ih =>
    intro a hl n hn
    simp only [Linked] at hl
    simp only [List.mem_cons] at hn
    rcases hn with rfl | hn
    · rw [hl.1, hl.2.1]
    · exact ih x hl.2.2 n (by simpa using hn)

theorem linked_next_prev (nx pv : Nat → Nat) (z : Nat) :
    ∀ (l : List Nat) (a : Nat), Linked nx pv a l z → ∀ n ∈ l ++ [z], nx (pv n) = n := by
  intro l
  induction l with
  | nil =>
    intro a hl n hn
    simp only [Linked] at hl
    simp only [List.nil_append, List.mem_singleton] at hn
    rw [hn, hl.2, hl.1]
  | cons x xs ih =>
    intro a hl n hn
    simp only [Linked] at hl
    simp only [List.cons_append, List.mem_cons] at hn
    rcases hn with rfl | hn
    · rw [hl.2.1, hl.1]
    · exact ih x hl.2.2 n hn

/-- Every member of a circular list satisfies `n.next.prev == n` and
`n.prev.next == n`. -/
theorem cycle_wf (h : Heap) (a : Nat) (l : List Nat) (hc : Cycle h a l) :
    ∀ n ∈ a :: l, h.prev (h.next n) = n ∧ h.next (h.prev n) = n := by
  intro n hn
  refine ⟨linked_prev_next _ _ a l a hc.2 n hn, linked_next_prev _ _ a l a hc.2 n ?_⟩
  simp only [List.mem_cons, List.mem_append, List.mem_singleton] at hn ⊢
  tauto

/-- Redirecting the last link of a path that ends in `b` to a new end point
`c`. -/
theorem linked_retarget (nx pv nx' pv' : Nat → Nat) (b c : Nat) :
    ∀ (l : List Nat) (a : Nat), Linked nx pv a l b → b ∉ l →
      (∀ n ∈ a :: l, nx n ≠ b → nx' n = nx n) →
      (∀ n ∈ a :: l, nx n = b → nx' n = c ∧ pv' c = n) →
      (∀ n ∈ l, pv' n = pv n) → Linked nx' pv' a l c := by
  intro l
  induction l with
  | nil =>
    intro a hl _ _ h2 _
    simp only [Linked] at hl ⊢
    exact h2 a (by simp) hl.1
  | cons x xs ih =>
    intro a hl hb h1 h2 h3
    simp only [Linked] at hl ⊢
    have hxb : x ≠ b := fun e => hb (by simp [e])
    refine ⟨?_, ?_, ?_⟩
    · rw [h1 a (by simp) (by rw [hl.1]; exact hxb)]; exact hl.1
    · rw [h3 x (by simp)]; exact hl.2.1
    · exact ih x hl.2.2 (fun hm => hb (List.mem_cons_of_mem _ hm))
        (fun n hm => h1 n (List.mem_cons_of_mem _ hm))
        (fun n hm => h2 n (List.mem_cons_of_mem _ hm))
        (fun n hm => h3 n (List.mem_cons_of_mem _ hm))

/-- Letting a path that starts at `b` start at a new node `c` instead. -/
theorem linked_resource (nx pv nx' pv' : Nat → Nat) (b c z : Nat) (l : List Nat)
    (hl : Linked nx pv b l z) (hb : b ∉ l) (hc : nx' c = nx b)
    (h1 : ∀ n ∈ l, nx' n = nx n)
    (h2 : ∀ n ∈ l ++ [z], pv n = b → pv' n = c)
    (h3 : ∀ n ∈ l ++ [z], pv n ≠ b → pv' n = pv n) : Linked nx' pv' c l z := by
  cases l with
  | nil =>
    simp only [Linked] at hl ⊢
    exact ⟨by rw [hc]; exact hl.1, h2 z (by simp) hl.2⟩
  | cons x xs =>
    simp only [Linked] at hl ⊢
    refine ⟨by rw [hc]; exact hl.1, h2 x (by simp) hl.2.1, ?_⟩
    refine linked_frame nx pv nx' pv' z xs x hl.2.2 h1 ?_
    intro n hn
    refine h3 n (by simp only [List.cons_append, List.mem_cons]; exact Or.inr hn) ?_
    intro e
    have := linked_prev_mem nx pv z xs x hl.2.2 n hn
    rw [e] at this
    exact hb this

theorem nodup_around (a b : Nat) (l1 l2 : List Nat) (hnd : (a :: (l1 ++ b :: l2)).Nodup) :
    a ∉ l1 ∧ a ∉ l2 ∧ a ≠ b ∧ b ∉ l1 ∧ b ∉ l2 ∧ (∀ n ∈ l1, n ∉ l2) ∧
      (a :: (l1 ++ l2)).Nodup := by
  simp only [List.nodup_cons, List.nodup_append, List.mem_append, List.mem_cons, not_or,
    List.Disjoint] at hnd ⊢
  obtain ⟨⟨h1, h2, h3⟩, h4, ⟨h5, h6⟩, h7⟩ := hnd
  refine ⟨h1, h3, h2, ?_, h5, ?_, ⟨h1, h3⟩, h4, h6, ?_⟩
  · intro hb; exact h7 hb (Or.inl rfl)
  · intro n hn hn2; exact h7 hn (Or.inr hn2)
  · intro n hn hn2; exact h7 hn (Or.inr hn2)

/-- Putting `c` in the place of `b`, or next to it, keeps a list free of
repetition when `c` is new. -/
theorem nodup_replace (a b c : Nat) (l1 l2 : List Nat)
    (hnd : (a :: (l1 ++ b :: l2)).Nodup) (hc : c ∉ a :: (l1 ++ b :: l2)) :
    (a :: (l1 ++ c :: l2)).Nodup ∧ (a :: (l1 ++ b :: c :: l2)).Nodup := by
  simp only [List.nodup_cons, List.nodup_append, List.mem_append, List.mem_cons, not_or,
    List.Disjoint] at hnd hc ⊢
  obtain ⟨⟨h1, h2, h3⟩, h4, ⟨h5, h6⟩, h7⟩ := hnd
  obtain ⟨c1, c2, c3, c4⟩ := hc
  refine ⟨⟨⟨h1, fun e => c1 e.symm, h3⟩, h4, ⟨c4, h6⟩, ?_⟩,
    ⟨⟨h1, h2, fun e => c1 e.symm, h3⟩, h4, ⟨⟨fun e => c3 e.symm, h5⟩, c4, h6⟩, ?_⟩⟩
  · intro n hn hn2
    rcases hn2 with e | hn2
    · exact c2 (e ▸ hn)
    · exact h7 hn (Or.inr hn2)
  · intro n hn hn2
    rcases hn2 with e | e | hn2
    · exact h7 hn (Or.inl e)
    · exact c2 (e ▸ hn)
    · exact h7 hn (Or.inr hn2)

/-- `block_detach` of a member removes it from the circular list. -/
theorem cycle_detach (h : Heap) (a b : Nat) (l1 l2 : List Nat)
    (hc : Cycle h a (l1 ++ b :: l2)) (hb0 : b ≠ 0) :
    Cycle (block_detach h b).2 a (l1 ++ l2) := by
  obtain ⟨hnd, hl⟩ := hc
  obtain ⟨ha1, ha2, hab, hb1, hb2, hdisj, hnd'⟩ := nodup_around a b l1 l2 hnd
  rw [linked_append] at hl
  obtain ⟨L1, L2⟩ := hl
  have hnx : (block_detach h b).2.next = upd (upd h.next (h.prev b) (h.next b)) b b := by
    simp [block_detach, hb0]
  have hpv : (block_detach h b).2.prev = upd (upd h.prev (h.next b) (h.prev b)) b b := by
    simp [block_detach, hb0]
  have hPmem : h.prev b ∈ a :: l1 := linked_prev_mem _ _ b l1 a L1 b (by simp)
  have hNmem : h.next b ∈ l2 ++ [a] := linked_next_mem _ _ a l2 b L2 b (by simp)
  have hPb : h.prev b ≠ b := by
    intro e; rw [e] at hPmem
    simp only [List.mem_cons] at hPmem
    rcases hPmem with e1 | e1
    · exact hab e1.symm
    · exact hb1 e1
  have hNb : h.next b ≠ b := by
    intro e; rw [e] at hNmem
    simp only [List.mem_append, List.mem_singleton] at hNmem
    rcases hNmem with e1 | e1
    · exact hb2 e1
    · exact hab e1.symm
  have hmem1 : ∀ n ∈ a :: l1, n ≠ b := by
    intro n hn e; rw [e] at hn
    simp only [List.mem_cons] at hn
    rcases hn with e1 | e1
    · exact hab e1.symm
    · exact hb1 e1
  have hN1 : ∀ n ∈ l1, n ≠ h.next b := by
    intro n hn e; rw [← e] at hNmem
    simp only [List.mem_append, List.mem_singleton] at hNmem
    rcases hNmem with e1 | e1
    · exact hdisj n hn e1
    · exact ha1 (e1 ▸ hn)
  have hP2 : ∀ n ∈ l2, n ≠ h.prev b := by
    intro n hn e; rw [← e] at hPmem
    simp only [List.mem_cons] at hPmem
    rcases hPmem with e1 | e1
    · exact ha2 (e1 ▸ hn)
    · exact hdisj n e1 hn
  -- the path from `a` to the predecessor now ends at the successor
  have S1 : Linked (upd (upd h.next (h.prev b) (h.next b)) b b)
      (upd (upd h.prev (h.next b) (h.prev b)) b b) a l1 (h.next b) := by
    refine linked_retarget _ _ _ _ b (h.next b) l1 a L1 hb1 ?_ ?_ ?_
    · intro n hn hne
      have hnP : n ≠ h.prev b := by
        intro e; rw [e] at hne
        exact hne (linked_next_prev _ _ b l1 a L1 b (by simp))
      rw [upd_other _ _ (hmem1 n hn), upd_other _ _ hnP]
    · intro n hn he
      have hnP : n = h.prev b := by
        have := linked_prev_next _ _ b l1 a L1 n hn
        rw [he] at this; exact this.symm
      subst hnP
      rw [upd_other _ _ hPb, upd_same, upd_other _ _ hNb, upd_same]
      exact ⟨rfl, rfl⟩
    · intro n hn
      rw [upd_other _ _ (hmem1 n (List.mem_cons_of_mem _ hn)), upd_other _ _ (hN1 n hn)]
  refine ⟨hnd', ?_⟩
  rw [hnx, hpv]
  cases l2 with
  | nil =>
    simp only [Linked] at L2
    rw [List.append_nil]
    rw [L2.1] at S1 ⊢
    exact S1
  | cons x xs =>
    simp only [Linked] at L2
    have hx := L2.1
    rw [linked_append]
    refine ⟨hx ▸ S1, ?_⟩
    have hxnd : x ∉ xs ∧ x ≠ a := by
      obtain ⟨-, -, hax, -, hxx, -⟩ := nodup_around a x l1 xs hnd'
      exact ⟨hxx, fun e => hax e.symm⟩
    refine linked_frame _ _ _ _ a xs x L2.2.2 ?_ ?_
    · intro n hn
      have hn2 : n ∈ x :: xs := hn
      have hnb : n ≠ b := fun e => hb2 (e ▸ hn2)
      rw [upd_other _ _ hnb, upd_other _ _ (hP2 n hn2)]
    · intro n hn
      simp only [List.mem_append, List.mem_singleton] at hn
      have hnb : n ≠ b := by
        rcases hn with e | e
        · exact fun e2 => hb2 (e2 ▸ List.mem_cons_of_mem _ e)
        · rw [e]; exact hab
      have hnx : n ≠ h.next b := by
        rw [hx]
        rcases hn with e | e
        · exact fun e2 => hxnd.1 (e2 ▸ e)
        · rw [e]; exact fun e2 => hxnd.2 e2.symm
      rw [upd_other _ _ hnb, upd_other _ _ hnx]

/-- `block_split` with slack links the remainder into the circular list right
after the split member. -/
theorem cycle_split (env : Env) (h : Heap) (size a b : Nat) (l1 l2 : List Nat)
    (hc : Cycle h a (l1 ++ b :: l2))
    (hslack : h.capacity b > (ALIGN env size + env.HEADER) % env.modulus)
    (hr : (dataOf env b + ALIGN env size) % env.modulus ∉ a :: (l1 ++ b :: l2)) :
    Cycle (block_split env h b size).2 a
      (l1 ++ b :: (dataOf env b + ALIGN env size) % env.modulus :: l2) := by
  obtain ⟨hnd, hl⟩ := hc
  obtain ⟨ha1, ha2, hab, hb1, hb2, hdisj, -⟩ := nodup_around a b l1 l2 hnd
  rw [linked_append] at hl
  obtain ⟨L1, L2⟩ := hl
  have hnx : (block_split env h b size).2.next
      = upd (upd h.next ((dataOf env b + ALIGN env size) % env.modulus) (h.next b)) b
          ((dataOf env b + ALIGN env size) % env.modulus) := by
    simp only [block_split, hslack, if_true]
  have hpv : (block_split env h b size).2.prev
      = upd (upd h.prev (h.next b) ((dataOf env b + ALIGN env size) % env.modulus))
          ((dataOf env b + ALIGN env size) % env.modulus) b := by
    simp only [block_split, hslack, if_true]
  refine ⟨(nodup_replace a b _ l1 l2 hnd hr).2, ?_⟩
  rw [hnx, hpv]
  generalize (dataOf env b + ALIGN env size) % env.modulus = r at hr ⊢
  simp only [List.mem_cons, List.mem_append, not_or] at hr
  obtain ⟨hra, hr1, hrb, hr2⟩ := hr
  have hNmem : h.next b ∈ l2 ++ [a] := linked_next_mem _ _ a l2 b L2 b (by simp)
  have hNr : h.next b ≠ r := by
    intro e; rw [e] at hNmem
    simp only [List.mem_append, List.mem_singleton] at hNmem
    rcases hNmem with e1 | e1
    · exact hr2 e1
    · exact hra e1
  have hN1 : ∀ n ∈ l1 ++ [b], n ≠ h.next b := by
    intro n hn e; rw [← e] at hNmem
    simp only [List.mem_append, List.mem_singleton] at hNmem hn
    rcases hNmem with e1 | e1
    · rcases hn with e2 | e2
      · exact hdisj n e2 e1
      · exact hb2 (e2 ▸ e1)
    · rcases hn with e2 | e2
      · exact ha1 (e1 ▸ e2)
      · exact hab (e1.symm.trans e2)
  rw [linked_append]
  refine ⟨?_, ?_⟩
  · refine linked_frame _ _ _ _ b l1 a L1 ?_ ?_
    · intro n hn
      simp only [List.mem_cons] at hn
      have hnb : n ≠ b := by
        rcases hn with e | e
        · rw [e]; exact hab
        · exact fun e2 => hb1 (e2 ▸ e)
      have hnr : n ≠ r := by
        rcases hn with e | e
        · rw [e]; exact fun e2 => hra e2.symm
        · exact fun e2 => hr1 (e2 ▸ e)
      rw [upd_other _ _ hnb, upd_other _ _ hnr]
    · intro n hn
      have hnN := hN1 n hn
      simp only [List.mem_append, List.mem_singleton] at hn
      have hnr : n ≠ r := by
        rcases hn with e | e
        · exact fun e2 => hr1 (e2 ▸ e)
        · rw [e]; exact fun e2 => hrb e2.symm
      rw [upd_other _ _ hnr, upd_other _ _ hnN]
  · show upd (upd h.next r (h.next b)) b r b = r ∧ upd (upd h.prev (h.next b) r) r b r = b ∧
      Linked (upd (upd h.next r (h.next b)) b r) (upd (upd h.prev (h.next b) r) r b) r l2 a
    refine ⟨upd_same _ _ _, upd_same _ _ _, ?_⟩
    refine linked_resource _ _ _ _ b r a l2 L2 hb2 ?_ ?_ ?_ ?_
    · rw [upd_other _ _ hrb, upd_same]
    · intro n hn
      have hnb : n ≠ b := fun e => hb2 (e ▸ hn)
      have hnr : n ≠ r := fun e => hr2 (e ▸ hn)
      rw [upd_other _ _ hnb, upd_other _ _ hnr]
    · intro n hn he
      have hnN : n = h.next b := by
        have := linked_next_prev _ _ a l2 b L2 n hn
        rw [he] at this; exact this.symm
      subst hnN
      rw [upd_other _ _ hNr, upd_same]
    · intro n hn hne
      have hnN : n ≠ h.next b := by
        intro e; rw [e] at hne
        exact hne (linked_prev_next _ _ a l2 b L2 b (by simp))
      have hnr : n ≠ r := by
        simp only [List.mem_append, List.mem_singleton] at hn
        rcases hn with e | e
        · exact fun e2 => hr2 (e2 ▸ e)
        · rw [e]; exact fun e2 => hra e2.symm
      rw [upd_other _ _ hnr, upd_other _ _ hnN]

/-- A successful `block_merge` into a detached block outside the list puts it
in the place of the absorbed member. -/
theorem cycle_merge (env : Env) (h : Heap) (a dst src : Nat) (l1 l2 : List Nat)
    (hc : Cycle h a (l1 ++ src :: l2))
    (hadj : (dataOf env dst + h.capacity dst) % env.modulus = src)
    (hdet : h.next dst = dst) (hd : dst ∉ a :: (l1 ++ src :: l2)) :
    Cycle (block_merge env h dst src).2 a (l1 ++ dst :: l2) := by
  obtain ⟨hnd, hl⟩ := hc
  obtain ⟨ha1, ha2, hab, hb1, hb2, hdisj, -⟩ := nodup_around a src l1 l2 hnd
  rw [linked_append] at hl
  obtain ⟨L1, L2⟩ := hl
  have hd' := hd
  simp only [List.mem_cons, List.mem_append, not_or] at hd'
  obtain ⟨hda, hd1, hds, hd2⟩ := hd'
  have hPmem : h.prev src ∈ a :: l1 := linked_prev_mem _ _ src l1 a L1 src (by simp)
  have hNmem : h.next src ∈ l2 ++ [a] := linked_next_mem _ _ a l2 src L2 src (by simp)
  have hPs : h.prev src ≠ src := by
    intro e; rw [e] at hPmem
    simp only [List.mem_cons] at hPmem
    rcases hPmem with e1 | e1
    · exact hab e1.symm
    · exact hb1 e1
  have hPd : h.prev src ≠ dst := by
    intro e; rw [e] at hPmem
    simp only [List.mem_cons] at hPmem
    rcases hPmem with e1 | e1
    · exact hda e1
    · exact hd1 e1
  have hNd : h.next src ≠ dst := by
    intro e; rw [e] at hNmem
    simp only [List.mem_append, List.mem_singleton] at hNmem
    rcases hNmem with e1 | e1
    · exact hd2 e1
    · exact hda e1
  have hnx : (block_merge env h dst src).2.next
      = upd (upd h.next (h.prev src) dst) dst (h.next src) := by
    simp only [block_merge, hadj, if_true, hdet, upd_other _ _ (Ne.symm hds),
      upd_other _ _ (Ne.symm hPs)]
  have hpv : (block_merge env h dst src).2.prev
      = upd (upd h.prev dst (h.prev src)) (h.next src) dst := by
    simp only [block_merge, hadj, if_true, hdet, upd_other _ _ (Ne.symm hds),
      upd_other _ _ (Ne.symm hPs)]
  refine ⟨(nodup_replace a src dst l1 l2 hnd hd).1, ?_⟩
  rw [hnx, hpv, linked_append]
  have hN1 : ∀ n ∈ l1, n ≠ h.next src := by
    intro n hn e; rw [← e] at hNmem
    simp only [List.mem_append, List.mem_singleton] at hNmem
    rcases hNmem with e1 | e1
    · exact hdisj n hn e1
    · exact ha1 (e1 ▸ hn)
  have hP2 : ∀ n ∈ l2, n ≠ h.prev src := by
    intro n hn e; rw [← e] at hPmem
    simp only [List.mem_cons] at hPmem
    rcases hPmem with e1 | e1
    · exact ha2 (e1 ▸ hn)
    · exact hdisj n e1 hn
  refine ⟨?_, ?_⟩
  · refine linked_retarget _ _ _ _ src dst l1 a L1 hb1 ?_ ?_ ?_
    · intro n hn hne
      have hnP : n ≠ h.prev src := by
        intro e; rw [e] at hne
        exact hne (linked_next_prev _ _ src l1 a L1 src (by simp))
      have hnd2 : n ≠ dst := by
        simp only [List.mem_cons] at hn
        rcases hn with e | e
        · rw [e]; exact fun e2 => hda e2.symm
        · exact fun e2 => hd1 (e2 ▸ e)
      rw [upd_other _ _ hnd2, upd_other _ _ hnP]
    · intro n hn he
      have hnP : n = h.prev src := by
        have := linked_prev_next _ _ src l1 a L1 n hn
        rw [he] at this; exact this.symm
      subst hnP
      rw [upd_other _ _ hPd, upd_same, upd_other _ _ (Ne.symm hNd), upd_same]
      exact ⟨rfl, rfl⟩
    · intro n hn
      have hnd2 : n ≠ dst := fun e2 => hd1 (e2 ▸ hn)
      rw [upd_other _ _ (hN1 n hn), upd_other _ _ hnd2]
  · refine linked_resource _ _ _ _ src dst a l2 L2 hb2 ?_ ?_ ?_ ?_
    · rw [upd_same]
    · intro n hn
      have hnd2 : n ≠ dst := fun e2 => hd2 (e2 ▸ hn)
      rw [upd_other _ _ hnd2, upd_other _ _ (hP2 n hn)]
    · intro n hn he
      have hnN : n = h.next src := by
        have := linked_next_prev _ _ a l2 src L2 n hn
        rw [he] at this; exact this.symm
      subst hnN
      rw [upd_same]
    · intro n hn hne
      have hnN : n ≠ h.next src := by
        intro e; rw [e] at hne
        exact hne (linked_prev_next _ _ a l2 src L2 src (by simp))
      have hnd2 : n ≠ dst := by
        simp only [List.mem_append, List.mem_singleton] at hn
        rcases hn with e | e
        · exact fun e2 => hd2 (e2 ▸ e)
        · rw [e]; exact fun e2 => hda e2.symm
      rw [upd_other _ _ hnN, upd_other _ _ hnd2]

/-! ## Traversals of a well-formed free list -/

/-- A block that lies in the address space and whose end, computed in
pointer arithmetic, is a non-null address: the computation did not wrap. -/
theorem adjacent_exact (env : Env) {x c b : Nat} (hgeo : x + env.HEADER + c ≤ env.modulus)
    (hb : b ≠ 0) (hadj : (dataOf env x + c) % env.modulus = b) :
    x + env.HEADER + c = b ∧ b < env.modulus := by
  have hM := modulus_pos env
  unfold dataOf at hadj
  rw [Nat.mod_add_mod] at hadj
  rcases Nat.eq_or_lt_of_le hgeo with e | e
  · rw [e, Nat.mod_self] at hadj
    exact absurd hadj.symm hb
  · rw [Nat.mod_eq_of_lt e] at hadj
    exact ⟨hadj, hadj ▸ e⟩

/-- The capacity computed by `block_merge` when the sum does not wrap. -/
theorem merged_exact (env : Env) {c1 c2 : Nat} (hlt : c1 + env.HEADER + c2 < env.modulus) :
    (c1 + (env.HEADER + c2) % env.modulus) % env.modulus = c1 + env.HEADER + c2 := by
  rw [Nat.mod_eq_of_lt (a := env.HEADER + c2) (by omega), Nat.mod_eq_of_lt (by omega)]
  omega

/-- A successful `block_merge` moves neither the break nor `GROWS` nor
`SHRINKS`, and writes the capacity of the destination only. -/
theorem block_merge_fields (env : Env) (h : Heap) (dst src : Nat)
    (hadj : (dataOf env dst + h.capacity dst) % env.modulus = src) :
    (block_merge env h dst src).2.capacity = upd h.capacity dst
      ((h.capacity dst + (env.HEADER + h.capacity src) % env.modulus) % env.modulus) ∧
    (block_merge env h dst src).2.brk = h.brk ∧
    (block_merge env h dst src).2.counters.GROWS = h.counters.GROWS ∧
    (block_merge env h dst src).2.counters.SHRINKS = h.counters.SHRINKS := by
  simp only [block_merge, hadj, if_true]
  split_ifs <;> simp

/-- A successful `block_merge` into a block that is linked into a list leaves
every link as it was. -/
theorem block_merge_linked (env : Env) (h : Heap) (dst src : Nat)
    (hadj : (dataOf env dst + h.capacity dst) % env.modulus = src)
    (hl : h.next dst ≠ dst) :
    (block_merge env h dst src).2.next = h.next ∧
    (block_merge env h dst src).2.prev = h.prev := by
  simp [block_merge, hadj, hl]

/-- The scan for a free physical successor over a well-formed list: it ends
at the list head without a change, or merges the one member that starts where
the block ends. -/
theorem free_list_merge_following_scan (env : Env) (block : Nat) (g : Heap) :
    ∀ (rest : List Nat) (pn fuel : Nat), Linked g.next g.prev pn rest env.FREELIST →
      env.FREELIST ∉ rest → rest.length < fuel →
      ((dataOf env block + g.capacity block) % env.modulus ∉ rest ∧
        free_list_merge_following env block fuel g (g.next pn) = .ok (false, g)) ∨
      ((dataOf env block + g.capacity block) % env.modulus ∈ rest ∧
        free_list_merge_following env block fuel g (g.next pn) = .ok (true,
          (block_merge env g block ((dataOf env block + g.capacity block) % env.modulus)).2)) := by
  intro rest
  induction rest with
  | nil =>
    intro pn fuel hl _ hf
    obtain ⟨f, rfl⟩ : ∃ f, fuel = f + 1 := ⟨fuel - 1, by simp at hf; omega⟩
    simp only [Linked] at hl
    left
    refine ⟨by simp, ?_⟩
    simp [free_list_merge_following, hl.1]
  | cons x xs ih =>
    intro pn fuel hl hFL hf
    obtain ⟨f, rfl⟩ : ∃ f, fuel = f + 1 := ⟨fuel - 1, by simp at hf; omega⟩
    simp only [Linked] at hl
    obtain ⟨hnx, -, hrest⟩ := hl
    have hx : x ≠ env.FREELIST := fun e => hFL (by simp [e])
    have hFL' : env.FREELIST ∉ xs := fun e => hFL (List.mem_cons_of_mem _ e)
    have hf' : xs.length < f := by simp at hf; omega
    rw [hnx]
    by_cases hadj : (dataOf env block + g.capacity block) % env.modulus = x
    · right
      refine ⟨by simp [hadj], ?_⟩
      rw [hadj]
      simp [free_list_merge_following, hx, block_merge, hadj]
    · have hm : block_merge env g block x = (false, g) := by simp [block_merge, hadj]
      have hstep : free_list_merge_following env block (f + 1) g x
          = free_list_merge_following env block f g (g.next x) := by
        simp [free_list_merge_following, hx, hm]
      rw [hstep]
      rcases ih x f hrest hFL' hf' with ⟨h1, h2⟩ | ⟨h1, h2⟩
      · left; exact ⟨by simp [hadj, h1], h2⟩
      · right; exact ⟨List.mem_cons_of_mem _ h1, h2⟩

/-- The scan for a free physical predecessor over a well-formed list: it ends
at the list head without a change, or merges the block into the first member
that ends where the block starts. -/
theorem free_list_merge_preceding_scan (env : Env) (block : Nat) (g : Heap) :
    ∀ (rest : List Nat) (pn fuel : Nat), Linked g.next g.prev pn rest env.FREELIST →
      env.FREELIST ∉ rest → rest.length < fuel →
      ((∀ x ∈ rest, (dataOf env x + g.capacity x) % env.modulus ≠ block) ∧
        free_list_merge_preceding env block fuel g (g.next pn) = .ok (false, g)) ∨
      (∃ x ∈ rest, (dataOf env x + g.capacity x) % env.modulus = block ∧
        free_list_merge_preceding env block fuel g (g.next pn)
          = .ok (true, (block_merge env g x block).2)) := by
  intro rest
  induction rest with
  | nil =>
    intro pn fuel hl _ hf
    obtain ⟨f, rfl⟩ : ∃ f, fuel = f + 1 := ⟨fuel - 1, by simp at hf; omega⟩
    simp only [Linked] at hl
    left
    refine ⟨by simp, ?_⟩
    simp [free_list_merge_preceding, hl.1]
  | cons x xs ih =>
    intro pn fuel hl hFL hf
    obtain ⟨f, rfl⟩ : ∃ f, fuel = f + 1 := ⟨fuel - 1, by simp at hf; omega⟩
    simp only [Linked] at hl
    obtain ⟨hnx, -, hrest⟩ := hl
    have hx : x ≠ env.FREELIST := fun e => hFL (by simp [e])
    have hFL' : env.FREELIST ∉ xs := fun e => hFL (List.mem_cons_of_mem _ e)
    have hf' : xs.length < f := by simp at hf; omega
    rw [hnx]
    by_cases hadj : (dataOf env x + g.capacity x) % env.modulus = block
    · right
      refine ⟨x, by simp, hadj, ?_⟩
      simp [free_list_merge_preceding, hx, block_merge, hadj]
    · have hm : block_merge env g x block = (false, g) := by simp [block_merge, hadj]
      have hstep : free_list_merge_preceding env block (f + 1) g x
          = free_list_merge_preceding env block f g (g.next x) := by
        simp [free_list_merge_preceding, hx, hm]
      rw [hstep]
      rcases ih x f hrest hFL' hf' with ⟨h1, h2⟩ | ⟨y, hy, h1, h2⟩
      · left
        refine ⟨?_, h2⟩
        intro y hy
        simp only [List.mem_cons] at hy
        rcases hy with rfl | hy
        · exact hadj
        · exact h1 y hy
      · right; exact ⟨y, List.mem_cons_of_mem _ hy, h1, h2⟩

/-- The first-fit search over a well-formed list that holds a fitting member
returns a fitting member. -/
theorem free_list_search_from_fit (env : Env) (g : Heap) (size : Nat) :
    ∀ (rest : List Nat) (pn fuel : Nat), Linked g.next g.prev pn rest env.FREELIST →
      env.FREELIST ∉ rest → rest.length < fuel →
      (∃ m ∈ rest, ALIGN env size ≤ g.capacity m) →
      ∃ found ∈ rest, ALIGN env size ≤ g.capacity found ∧
        free_list_search_from env g size fuel (g.next pn) = .ok found := by
  intro rest
  induction rest with
  | nil =>
    intro pn fuel _ _ _ hm
    obtain ⟨m, hm, -⟩ := hm
    simp at hm
  | cons x xs ih =>
    intro pn fuel hl hFL hf hm
    obtain ⟨f, rfl⟩ : ∃ f, fuel = f + 1 := ⟨fuel - 1, by simp at hf; omega⟩
    simp only [Linked] at hl
    obtain ⟨hnx, -, hrest⟩ := hl
    have hx : x ≠ env.FREELIST := fun e => hFL (by simp [e])
    have hFL' : env.FREELIST ∉ xs := fun e => hFL (List.mem_cons_of_mem _ e)
    have hf' : xs.length < f := by simp at hf; omega
    rw [hnx]
    by_cases hfit : ALIGN env size ≤ g.capacity x
    · refine ⟨x, by simp, hfit, ?_⟩
      simp [free_list_search_from, hx, hfit]
    · have hstep : free_list_search_from env g size (f + 1) x
          = free_list_search_from env g size f (g.next x) := by
        simp [free_list_search_from, hx, hfit]
      rw [hstep]
      obtain ⟨m, hmem, hmfit⟩ := hm
      simp only [List.mem_cons] at hmem
      have hm' : ∃ m ∈ xs, ALIGN env size ≤ g.capacity m := by
        rcases hmem with rfl | hmem
        · exact absurd hmfit hfit
        · exact ⟨m, hmem, hmfit⟩
      obtain ⟨found, h1, h2, h3⟩ := ih x f hrest hFL' hf' hm'
      exact ⟨found, List.mem_cons_of_mem _ h1, h2, h3⟩

/-- Appending a block that is not a member puts it at the tail of the circular
list. -/
theorem cycle_append (env : Env) (h : Heap) (b : Nat) (l : List Nat)
    (hc : Cycle h env.FREELIST l) (hb : b ∉ env.FREELIST :: l) :
    Cycle (free_list_append env h b) env.FREELIST (l ++ [b]) := by
  obtain ⟨hnd, hl⟩ := hc
  have hb' := hb
  simp only [List.mem_cons, not_or] at hb'
  obtain ⟨hbF, hbl⟩ := hb'
  have hFl : env.FREELIST ∉ l := (List.nodup_cons.mp hnd).1
  have hnx : (free_list_append env h b).next
      = upd (upd h.next b env.FREELIST) (h.prev env.FREELIST) b := rfl
  have hpv : (free_list_append env h b).prev
      = upd (upd h.prev b (h.prev env.FREELIST)) env.FREELIST b := rfl
  have hTmem : h.prev env.FREELIST ∈ env.FREELIST :: l :=
    linked_prev_mem _ _ env.FREELIST l env.FREELIST hl env.FREELIST (by simp)
  have hTb : h.prev env.FREELIST ≠ b := fun e => hb (e ▸ hTmem)
  have hTn : h.next (h.prev env.FREELIST) = env.FREELIST :=
    linked_next_prev _ _ env.FREELIST l env.FREELIST hl env.FREELIST (by simp)
  refine ⟨?_, ?_⟩
  · have h1 := List.nodup_cons.mp hnd
    rw [List.nodup_cons]
    refine ⟨?_, ?_⟩
    · simp only [List.mem_append, List.mem_singleton, not_or]
      exact ⟨h1.1, fun e => hbF e.symm⟩
    · rw [List.nodup_append]
      refine ⟨h1.2, List.nodup_singleton b, ?_⟩
      intro a ha hab
      simp only [List.mem_singleton] at hab
      exact hbl (hab ▸ ha)
  · rw [hnx, hpv, linked_append]
    refine ⟨?_, ?_⟩
    · refine linked_retarget _ _ _ _ env.FREELIST b l env.FREELIST hl hFl ?_ ?_ ?_
      · intro n hn hne
        have hnb : n ≠ b := fun e => hb (e ▸ hn)
        have hnT : n ≠ h.prev env.FREELIST := by
          intro e; rw [e] at hne; exact hne hTn
        rw [upd_other _ _ hnT, upd_other _ _ hnb]
      · intro n hn he
        have hnT : n = h.prev env.FREELIST := by
          have := linked_prev_next _ _ env.FREELIST l env.FREELIST hl n hn
          rw [he] at this; exact this.symm
        subst hnT
        rw [upd_same, upd_other _ _ hbF, upd_same]
        exact ⟨rfl, rfl⟩
      · intro n hn
        have hnF : n ≠ env.FREELIST := fun e => hFl (e ▸ hn)
        have hnb : n ≠ b := fun e => hbl (e ▸ hn)
        rw [upd_other _ _ hnF, upd_other _ _ hnb]
    · simp only [Linked]
      refine ⟨?_, ?_⟩
      · rw [upd_other _ _ (Ne.symm hTb), upd_same]
      · rw [upd_same]

/-- A member of a circular list is not its own successor. -/
theorem cycle_next_ne (h : Heap) (a : Nat) (l : List Nat) (hc : Cycle h a l) :
    ∀ x ∈ l, h.next x ≠ x := by
  intro x hx e
  obtain ⟨l1, l2, rfl⟩ := List.append_of_mem hx
  obtain ⟨hnd, hl⟩ := hc
  obtain ⟨-, -, hab, -, hb2, -, -⟩ := nodup_around a x l1 l2 hnd
  rw [linked_append] at hl
  have hmem := linked_next_mem _ _ a l2 x hl.2 x (by simp)
  rw [e] at hmem
  simp only [List.mem_append, List.mem_singleton] at hmem
  rcases hmem with h1 | h1
  · exact hb2 h1
  · exact hab h1.symm

/-- `block_detach` writes links only. -/
theorem block_detach_fields (h : Heap) (block : Nat) :
    (block_detach h block).2.capacity = h.capacity ∧
    (block_detach h block).2.brk = h.brk ∧
    (block_detach h block).2.counters = h.counters := by
  unfold block_detach
  split_ifs <;> exact ⟨rfl, rfl, rfl⟩

/-- Inserting a detached block into a well-formed free list whose blocks lie
in the address space: the call returns, the list stays well formed and gains at
most the block, its members still lie in the address space, some member is then
at least as large as the block, the break, `GROWS` and `SHRINKS` are untouched,
and when no member ends where the block starts the other members keep their
capacity. -/
theorem free_list_insert_cycle (env : Env) (g : Heap) (b : Nat) (l : List Nat)
    (hH : 0 < env.HEADER) (hb0 : b ≠ 0) (hc : Cycle g env.FREELIST l)
    (hbl : b ∉ env.FREELIST :: l) (hnz : ∀ x ∈ l, x ≠ 0)
    (hdn : g.next b = b) (hdp : g.prev b = b)
    (hgeo : ∀ x ∈ b :: l, x + env.HEADER + g.capacity x ≤ env.modulus)
    (hfuel : l.length < env.fuel) :
    ∃ h2 l2, free_list_insert env g b = .ok h2 ∧ Cycle h2 env.FREELIST l2 ∧
      l2.length ≤ l.length + 1 ∧ (∀ x ∈ l2, x = b ∨ x ∈ l) ∧
      (∃ m ∈ l2, g.capacity b ≤ h2.capacity m) ∧
      ((∀ x ∈ l, (dataOf env x + g.capacity x) % env.modulus ≠ b) →
        ∀ x ∈ l2, x ≠ b → h2.capacity x = g.capacity x) ∧
      h2.brk = g.brk ∧ h2.counters.GROWS = g.counters.GROWS ∧
      h2.counters.SHRINKS = g.counters.SHRINKS ∧
      (∀ x ∈ l2, x + env.HEADER + h2.capacity x ≤ env.modulus) := by
  have hnd := hc.1
  have hlk := hc.2
  have hFl : env.FREELIST ∉ l := (List.nodup_cons.mp hnd).1
  have hgb := hgeo b (by simp)
  rcases free_list_merge_following_scan env b g l env.FREELIST env.fuel hlk hFl hfuel
    with ⟨hA, hAeq⟩ | ⟨hA, hAeq⟩
  · rcases free_list_merge_preceding_scan env b g l env.FREELIST env.fuel hlk hFl hfuel
      with ⟨hB, hBeq⟩ | ⟨x, hx, hadj, hBeq⟩
    · -- no free neighbour: the block is appended
      refine ⟨free_list_append env g b, l ++ [b], ?_, cycle_append env g b l hc hbl, by simp,
        ?_, ⟨b, by simp, le_refl _⟩, ?_, rfl, rfl, rfl, ?_⟩
      · simp [free_list_insert, hAeq, hBeq]
      · intro y hy
        simp only [List.mem_append, List.mem_singleton] at hy
        tauto
      · intro _ y _ _; rfl
      · intro y hy
        refine hgeo y ?_
        simp only [List.mem_append, List.mem_singleton, List.mem_cons] at hy ⊢
        tauto
    · -- a free predecessor absorbs the block
      have hxnext := cycle_next_ne g env.FREELIST l hc x hx
      obtain ⟨hmn, hmp⟩ := block_merge_linked env g x b hadj hxnext
      obtain ⟨hmc, hmb, hmg, hms⟩ := block_merge_fields env g x b hadj
      have hdet : block_detach (block_merge env g x b).2 b = (b, (block_merge env g x b).2) :=
        block_detach_detached _ b (by rw [hmp]; exact hdp) (by rw [hmn]; exact hdn)
      obtain ⟨hxe, -⟩ := adjacent_exact env (hgeo x (List.mem_cons_of_mem _ hx)) hb0 hadj
      have hsum : g.capacity x + env.HEADER + g.capacity b < env.modulus := by omega
      refine ⟨(block_merge env g x b).2, l, ?_, ⟨hnd, by rw [hmn, hmp]; exact hlk⟩, by omega,
        fun y hy => Or.inr hy, ⟨x, hx, ?_⟩, ?_, hmb, hmg, hms, ?_⟩
      · simp [free_list_insert, hAeq, hBeq, hdet]
      · rw [hmc, upd_same, merged_exact env hsum]; omega
      · intro hno; exact absurd hadj (hno x hx)
      · intro y hy
        by_cases hyx : y = x
        · rw [hyx, hmc, upd_same, merged_exact env hsum]; omega
        · rw [hmc, upd_other _ _ hyx]
          exact hgeo y (List.mem_cons_of_mem _ hy)
  · -- the free successor is absorbed and the block takes its place
    obtain ⟨e, he⟩ : ∃ e, (dataOf env b + g.capacity b) % env.modulus = e := ⟨_, rfl⟩
    rw [he] at hA hAeq
    obtain ⟨l1, l2, hl12⟩ := List.append_of_mem hA
    subst hl12
    have he0 : e ≠ 0 := hnz _ hA
    obtain ⟨hbe, -⟩ := adjacent_exact env hgb he0 he
    have hge := hgeo e (List.mem_cons_of_mem _ hA)
    have hsumA : g.capacity b + env.HEADER + g.capacity e < env.modulus := by omega
    have hcA : Cycle (block_merge env g b e).2 env.FREELIST (l1 ++ b :: l2) :=
      cycle_merge env g env.FREELIST b e l1 l2 hc he hdn hbl
    obtain ⟨hAc, hAb, hAg, hAs⟩ := block_merge_fields env g b e he
    have hcapb : (block_merge env g b e).2.capacity b
        = g.capacity b + env.HEADER + g.capacity e := by
      rw [hAc, upd_same, merged_exact env hsumA]
    have hcapo : ∀ y, y ≠ b → (block_merge env g b e).2.capacity y = g.capacity y :=
      fun y hy => by rw [hAc, upd_other _ _ hy]
    have hFlA : env.FREELIST ∉ l1 ++ b :: l2 := (List.nodup_cons.mp hcA.1).1
    have hlenA : (l1 ++ b :: l2).length < env.fuel := by
      simp only [List.length_append, List.length_cons] at hfuel ⊢
      exact hfuel
    rcases free_list_merge_preceding_scan env b (block_merge env g b e).2 (l1 ++ b :: l2)
      env.FREELIST env.fuel hcA.2 hFlA hlenA with ⟨hB, hBeq⟩ | ⟨x, hx, hadj, hBeq⟩
    · refine ⟨(block_merge env g b e).2, l1 ++ b :: l2, ?_, hcA, ?_, ?_,
        ⟨b, by simp, by rw [hcapb]; omega⟩, ?_, hAb, hAg, hAs, ?_⟩
      · simp [free_list_insert, hAeq, hBeq]
      · simp
      · intro y hy
        simp only [List.mem_append, List.mem_cons] at hy ⊢
        tauto
      · intro _ y _ hyb; exact hcapo y hyb
      · intro y hy
        by_cases hyb : y = b
        · rw [hyb, hcapb]; omega
        · rw [hcapo y hyb]
          refine hgeo y ?_
          simp only [List.mem_append, List.mem_cons] at hy ⊢
          tauto
    · -- and a free predecessor absorbs the enlarged block
      have hxb : x ≠ b := by
        intro e1
        rw [e1] at hadj
        have := adjacent_exact env (by rw [hcapb]; omega) hb0 hadj
        omega
      have hxl : x ∈ l1 ++ e :: l2 := by
        simp only [List.mem_append, List.mem_cons] at hx ⊢
        tauto
      have hxl' : x ∈ l1 ++ l2 := by
        simp only [List.mem_append, List.mem_cons] at hx ⊢
        tauto
      have hcx : (block_merge env g b e).2.capacity x = g.capacity x := hcapo x hxb
      have hadjg : (dataOf env x + g.capacity x) % env.modulus = b := by
        rw [← hcx]; exact hadj
      obtain ⟨hxe, -⟩ := adjacent_exact env (hgeo x (List.mem_cons_of_mem _ hxl)) hb0 hadjg
      have hxnext := cycle_next_ne _ env.FREELIST _ hcA x hx
      obtain ⟨hmn, hmp⟩ := block_merge_linked env _ x b hadj hxnext
      obtain ⟨hmc, hmb, hmg, hms⟩ := block_merge_fields env _ x b hadj
      have hcB : Cycle (block_merge env (block_merge env g b e).2 x b).2 env.FREELIST
          (l1 ++ b :: l2) := ⟨hcA.1, by rw [hmn, hmp]; exact hcA.2⟩
      have hcD := cycle_detach _ env.FREELIST b l1 l2 hcB hb0
      obtain ⟨hdc, hdb, hdg⟩ :=
        block_detach_fields (block_merge env (block_merge env g b e).2 x b).2 b
      have hsumB : (block_merge env g b e).2.capacity x + env.HEADER
          + (block_merge env g b e).2.capacity b < env.modulus := by
        rw [hcx, hcapb]; omega
      refine ⟨(block_detach (block_merge env (block_merge env g b e).2 x b).2 b).2, l1 ++ l2,
        ?_, hcD, ?_, ?_, ⟨x, hxl', ?_⟩, ?_, ?_, ?_, ?_, ?_⟩
      · simp [free_list_insert, hAeq, hBeq]
      · simp only [List.length_append, List.length_cons]; omega
      · intro y hy
        right
        simp only [List.mem_append, List.mem_cons] at hy ⊢
        tauto
      · rw [hdc, hmc, upd_same, merged_exact env hsumB, hcapb]; omega
      · intro hno; exact absurd hadjg (hno x hxl)
      · rw [hdb, hmb, hAb]
      · rw [hdg, hmg, hAg]
      · rw [hdg, hms, hAs]
      · intro y hy
        have hyl : y ∈ l1 ++ e :: l2 := by
          simp only [List.mem_append, List.mem_cons] at hy ⊢
          tauto
        have hyb : y ≠ b := fun e1 => hbl (List.mem_cons_of_mem _ (e1 ▸ hyl))
        by_cases hyx : y = x
        · rw [hyx, hdc, hmc, upd_same, merged_exact env hsumB, hcx, hcapb]; omega
        · rw [hdc, hmc, upd_other _ _ hyx, hcapo y hyb]
          exact hgeo y (List.mem_cons_of_mem _ hyl)

/-! ## Releasing a block and allocating again -/

/-- A detached block released into a well-formed free list without being
trimmed serves the next request that it covers: `free` returns, and `malloc`
then takes a block from the list and does not grow the heap.  The block taken
is the released block or an earlier member; it is the released block when no
earlier member fits the request and none ends where the released block
starts. -/
theorem free_then_malloc (env : Env) (hH : 0 < env.HEADER) (h1 : Heap)
    (s' p b : Nat) (l : List Nat) (hs' : 1 ≤ s') (hal : s' ≤ ALIGN env s')
    (hp : p ≠ 0) (hblk : BLOCK_FROM_POINTER env p = b) (hpb : p = dataOf env b)
    (hb0 : b ≠ 0) (hcap : ALIGN env s' ≤ h1.capacity b)
    (hdn : h1.next b = b) (hdp : h1.prev b = b)
    (hc : Cycle h1 env.FREELIST l) (hbl : b ∉ env.FREELIST :: l) (hnz : ∀ x ∈ l, x ≠ 0)
    (hgeo : ∀ x ∈ b :: l, x + env.HEADER + h1.capacity x ≤ env.modulus)
    (hfuel : l.length + 2 ≤ env.fuel)
    (hrel : (block_release env h1.countFree b).1 = false) :
    ∃ h2 q h3 found, free env h1 p = .ok h2 ∧
      h2.counters.SHRINKS = h1.counters.SHRINKS ∧
      malloc env h2 s' = .ok (q, h3) ∧ q ≠ 0 ∧ q = dataOf env found ∧
      h3.brk = h2.brk ∧ h3.counters.GROWS = h2.counters.GROWS ∧
      (found = b ∨ found ∈ l) ∧ h3.size found = s' ∧ s' ≤ h3.capacity found ∧
      ((∀ x ∈ l, h1.capacity x < ALIGN env s' ∧
          (dataOf env x + h1.capacity x) % env.modulus ≠ b) → q = p) := by
  have hs'ne : s' ≠ 0 := by omega
  obtain ⟨hrc, -, hrp, hrn⟩ := block_release_fields env h1.countFree b
  have hrc' : (block_release env h1.countFree b).2.capacity = h1.capacity := hrc
  have hrp' : (block_release env h1.countFree b).2.prev = h1.prev := hrp
  have hrn' : (block_release env h1.countFree b).2.next = h1.next := hrn
  have hrs : (block_release env h1.countFree b).2.counters.SHRINKS = h1.counters.SHRINKS := by
    rw [block_release_false_counters env h1.countFree b hrel]; rfl
  have hcg : Cycle (block_release env h1.countFree b).2 env.FREELIST l :=
    ⟨hc.1, by rw [hrn', hrp']; exact hc.2⟩
  obtain ⟨g2, l2, hins, hc2, hlen, hmem, ⟨m, hm, hmcap⟩, hsame, -, -, hshr, hgeo2⟩ :=
    free_list_insert_cycle env (block_release env h1.countFree b).2 b l hH hb0 hcg hbl hnz
      (by rw [hrn']; exact hdn) (by rw [hrp']; exact hdp)
      (by rw [hrc']; exact hgeo) (by omega)
  have hfree : free env h1 p = .ok g2 := by
    simp only [free, hp, if_false, hblk, hrel, if_true]
    exact hins
  rw [hrc'] at hmcap hsame
  have hFl2 : env.FREELIST ∉ l2 := (List.nodup_cons.mp hc2.1).1
  obtain ⟨found, hfm, hfit, hsearch⟩ :=
    free_list_search_from_fit env g2 s' l2 env.FREELIST env.fuel hc2.2 hFl2 (by omega)
      ⟨m, hm, le_trans hcap hmcap⟩
  have hfl := hmem found hfm
  have hf0 : found ≠ 0 := by
    rcases hfl with e | e
    · rw [e]; exact hb0
    · exact hnz found e
  obtain ⟨q1, q2, q3, -, q5, q6, q7, q8⟩ := block_split_detach_post env g2 found s' hf0 hfit hal
  have hasrt2 : malloc_asserts
      (block_detach (block_split env g2 found s').2 (block_split env g2 found s').1).2
      found s' = true := by
    simp only [malloc_asserts, Bool.and_eq_true, decide_eq_true_eq]
    exact ⟨⟨⟨by rw [q2]; exact q3, q2⟩, q5⟩, q6⟩
  refine ⟨g2, dataOf env found,
    { (block_detach (block_split env g2 found s').2 (block_split env g2 found s').1).2 with
    counters :=
      { (block_detach (block_split env g2 found s').2
          (block_split env g2 found s').1).2.counters with
        MALLOCS := (block_detach (block_split env g2 found s').2
          (block_split env g2 found s').1).2.counters.MALLOCS + 1,
        REQUESTED := (block_detach (block_split env g2 found s').2
          (block_split env g2 found s').1).2.counters.REQUESTED + (s' : Int) } },
    found, hfree, by rw [hshr, hrs], ?_, ?_, rfl, q7, q8, hfl, q2, q3, ?_⟩
  · have hsearch2 : free_list_search env g2 s' = .ok found := hsearch
    simp only [malloc, init_counters, hs'ne, if_false, hsearch2, hf0, q1, hasrt2, if_true]
  · have := hgeo2 found hfm
    have hd : dataOf env found = found + env.HEADER := Nat.mod_eq_of_lt (by omega)
    rw [hd]; omega
  · intro hsmall
    have hfb : found = b := by
      by_contra hne
      have hfl' : found ∈ l := hfl.resolve_left hne
      have h1c := hsame (fun x hx => (hsmall x hx).2) found hfm hne
      have := (hsmall found hfl').1
      omega
    rw [hfb, hpb]

/-- A returning search over a well-formed list found a member whose capacity
covers the aligned request, or nothing. -/
theorem free_list_search_from_mem (env : Env) (g : Heap) (size : Nat) :
    ∀ (rest : List Nat) (pn fuel found : Nat), Linked g.next g.prev pn rest env.FREELIST →
      free_list_search_from env g size fuel (g.next pn) = .ok found → found ≠ 0 →
      found ∈ rest ∧ ALIGN env size ≤ g.capacity found := by
  intro rest
  induction rest with
  | nil =>
    intro pn fuel found hl hs hf
    simp only [Linked] at hl
    rw [hl.1] at hs
    cases fuel with
    | zero => simp [free_list_search_from] at hs
    | succ f =>
      simp only [free_list_search_from, if_true, Except.ok.injEq] at hs
      exact absurd hs.symm hf
  | cons x xs ih =>
    intro pn fuel found hl hs hf
    simp only [Linked] at hl
    obtain ⟨hnx, -, hrest⟩ := hl
    rw [hnx] at hs
    cases fuel with
    | zero => simp [free_list_search_from] at hs
    | succ f =>
      simp only [free_list_search_from] at hs
      split_ifs at hs with h1 h2
      · simp only [Except.ok.injEq] at hs; exact absurd hs.symm hf
      · simp only [Except.ok.injEq] at hs; subst hs; exact ⟨by simp, h2⟩
      · obtain ⟨a, b⟩ := ih x f found hrest hs hf
        exact ⟨List.mem_cons_of_mem _ a, b⟩

/-- The two ways in which `malloc` obtains the block it returns: a fresh block
at the break when the search finds nothing, or the block found, split and
detached. -/
theorem malloc_run (env : Env) (h : Heap) (s p : Nat) (h1 : Heap)
    (hm1 : malloc env h s = .ok (p, h1)) (hp : p ≠ 0) :
    ∃ b, b ≠ 0 ∧ p = dataOf env b ∧ h1.size b = s ∧ h1.next b = b ∧ h1.prev b = b ∧
      ((free_list_search env h s = .ok 0 ∧ b = h.brk ∧
          h1.capacity = upd h.capacity h.brk (ALIGN env s) ∧
          h1.next = upd h.next h.brk h.brk ∧ h1.prev = upd h.prev h.brk h.brk) ∨
       (free_list_search env h s = .ok b ∧
          h1.capacity = (block_split env h b s).2.capacity ∧
          h1.next = (block_detach (block_split env h b s).2 b).2.next ∧
          h1.prev = (block_detach (block_split env h b s).2 b).2.prev)) := by
  unfold malloc at hm1
  by_cases hs : s = 0
  · simp [hs] at hm1; omega
  · simp only [hs, if_false, init_counters] at hm1
    cases hf : free_list_search env h s with
    | error e => simp [hf] at hm1
    | ok found =>
      simp only [hf] at hm1
      by_cases hfound : found = 0
      · simp only [hfound, if_true] at hm1
        split_ifs at hm1 with hb ha
        · simp only [Except.ok.injEq, Prod.mk.injEq] at hm1
          exact absurd hm1.1.symm hp
        · simp only [Except.ok.injEq, Prod.mk.injEq] at hm1
          obtain ⟨hp1, hh⟩ := hm1
          obtain ⟨hbe, hc1, -, hp2, hn2⟩ := block_allocate_fields env h s hb
          simp only [malloc_asserts, Bool.and_eq_true, decide_eq_true_eq] at ha
          obtain ⟨⟨⟨-, a2⟩, a3⟩, a4⟩ := ha
          rw [hbe] at hb a2 a3 a4 hp1
          rw [← hh]
          exact ⟨h.brk, hb, hp1.symm, a2, a3, a4,
            Or.inl ⟨by rw [hfound], rfl, hc1, hn2, hp2⟩⟩
      · simp only [hfound, if_false] at hm1
        have hr1 : (block_split env h found s).1 = found := by
          simp only [block_split]; split_ifs <;> rfl
        have hr2 : (block_detach (block_split env h found s).2 found).1 = found := by
          unfold block_detach; split_ifs <;> rfl
        rw [hr1] at hm1
        split_ifs at hm1 with hb ha
        · simp only [Except.ok.injEq, Prod.mk.injEq] at hm1
          exact absurd hm1.1.symm hp
        · simp only [Except.ok.injEq, Prod.mk.injEq] at hm1
          obtain ⟨hp1, hh⟩ := hm1
          simp only [malloc_asserts, Bool.and_eq_true, decide_eq_true_eq] at ha
          obtain ⟨⟨⟨-, a2⟩, a3⟩, a4⟩ := ha
          rw [hr2] at hb a2 a3 a4 hp1
          rw [← hh]
          refine ⟨found, hb, hp1.symm, a2, a3, a4, Or.inr ⟨rfl, ?_, rfl, rfl⟩⟩
          exact (block_detach_fields _ found).1

/-- A returning `malloc` on a heap whose free list is well formed, with its
blocks non-null, below the break and not containing another header, leaves
such a free list behind: the former list without the block handed out, plus
the remainder when that block was split.  The block handed out is detached,
not a member, and covers the aligned request. -/
theorem malloc_free_list (env : Env) (hwf : env.WF) (hH : 0 < env.HEADER) (h h1 : Heap)
    (s p : Nat) (l : List Nat)
    (hc : Cycle h env.FREELIST l) (hnz : ∀ x ∈ l, x ≠ 0)
    (hin : ∀ x ∈ l, x + env.HEADER + h.capacity x ≤ h.brk)
    (hsep : ∀ x ∈ l, ∀ y ∈ env.FREELIST :: l,
      ¬ (x < y ∧ y < x + env.HEADER + h.capacity x))
    (hhead : h.brk ≠ env.FREELIST)
    (htop : h.brk + env.HEADER + ALIGN env s ≤ env.modulus)
    (hm1 : malloc env h s = .ok (p, h1)) (hp : p ≠ 0) :
    ∃ b l1, BLOCK_FROM_POINTER env p = b ∧ b ≠ 0 ∧ p = dataOf env b ∧
      h1.next b = b ∧ h1.prev b = b ∧ ALIGN env s ≤ h1.capacity b ∧
      Cycle h1 env.FREELIST l1 ∧ b ∉ env.FREELIST :: l1 ∧ l1.length ≤ l.length ∧
      (∀ x ∈ l1, x ≠ 0) ∧
      (∀ x ∈ l1, x ∈ l ∨ x = (p + ALIGN env s) % env.modulus) ∧
      (∀ x ∈ b :: l1, x + env.HEADER + h1.capacity x ≤ env.modulus) ∧
      (l = [] → l1 = []) := by
  obtain ⟨b, hb0, hpb, -, hn, hpv, hcase⟩ := malloc_run env h s p h1 hm1 hp
  have hbrkM : h.brk < env.modulus := by omega
  rcases hcase with ⟨-, hbe, hc1, hn1, hp1⟩ | ⟨hsearch, hc1, hn1, hp1⟩
  · -- a fresh block at the break
    subst hbe
    have hblk : BLOCK_FROM_POINTER env p = h.brk := by
      rw [hpb]; exact BLOCK_FROM_POINTER_dataOf env hwf hbrkM
    have hnotin : ∀ x ∈ env.FREELIST :: l, x ≠ h.brk := by
      intro x hx
      simp only [List.mem_cons] at hx
      rcases hx with e | hx
      · rw [e]; exact Ne.symm hhead
      · have := hin x hx; omega
    refine ⟨h.brk, l, hblk, hb0, hpb, hn, hpv, by rw [hc1, upd_same], ⟨hc.1, ?_⟩, ?_,
      le_refl _, hnz, fun x hx => Or.inl hx, ?_, fun e => e⟩
    · rw [hn1, hp1]
      refine linked_frame h.next h.prev _ _ env.FREELIST l env.FREELIST hc.2 ?_ ?_
      · intro n hn; exact upd_other _ _ (hnotin n hn)
      · intro n hn
        refine upd_other _ _ (hnotin n ?_)
        simp only [List.mem_append, List.mem_singleton, List.mem_cons] at hn ⊢
        tauto
    · intro hmem; exact hnotin _ hmem rfl
    · intro x hx
      simp only [List.mem_cons] at hx
      rcases hx with e | hx
      · rw [e, hc1, upd_same]; exact htop
      · rw [hc1, upd_other _ _ (hnotin x (List.mem_cons_of_mem _ hx))]
        have := hin x hx; omega
  · -- a block found in the free list
    obtain ⟨hbl, hfit⟩ :=
      free_list_search_from_mem env h s l env.FREELIST env.fuel b hc.2 hsearch hb0
    obtain ⟨la, lb, hl⟩ := List.append_of_mem hbl
    subst hl
    have hinb := hin b hbl
    have hbM : b < env.modulus := by omega
    have hblk : BLOCK_FROM_POINTER env p = b := by
      rw [hpb]; exact BLOCK_FROM_POINTER_dataOf env hwf hbM
    obtain ⟨-, -, hFb, hb1, hb2, -, -⟩ := nodup_around env.FREELIST b la lb hc.1
    have hd : dataOf env b = b + env.HEADER := Nat.mod_eq_of_lt (by omega)
    have hsum : (ALIGN env s + env.HEADER) % env.modulus = ALIGN env s + env.HEADER :=
      Nat.mod_eq_of_lt (by omega)
    have hold : ∀ x, x ∈ la ∨ x ∈ lb → x ≠ b ∧ x + env.HEADER + h.capacity x ≤ env.modulus ∧
        x ≠ 0 := by
      intro x hx
      have hxl : x ∈ la ++ b :: lb := by
        simp only [List.mem_append, List.mem_cons]; tauto
      have := hin x hxl
      refine ⟨?_, by omega, hnz x hxl⟩
      rcases hx with hx | hx
      · exact fun e => hb1 (e ▸ hx)
      · exact fun e => hb2 (e ▸ hx)
    by_cases hslack : h.capacity b > (ALIGN env s + env.HEADER) % env.modulus
    · -- the block is split: the remainder takes its place in the list
      have hr : (dataOf env b + ALIGN env s) % env.modulus = b + env.HEADER + ALIGN env s := by
        rw [hd]; exact Nat.mod_eq_of_lt (by omega)
      have hrn : (dataOf env b + ALIGN env s) % env.modulus
          ∉ env.FREELIST :: (la ++ b :: lb) := by
        intro hmem
        exact hsep b hbl _ hmem ⟨by rw [hr]; omega, by rw [hr]; omega⟩
      have hcs := cycle_split env h s env.FREELIST b la lb hc hslack hrn
      have hcd := cycle_detach _ env.FREELIST b la (_ :: lb) hcs hb0
      have hcap : h1.capacity = upd (upd h.capacity ((dataOf env b + ALIGN env s) % env.modulus)
          (h.capacity b - (ALIGN env s + env.HEADER) % env.modulus)) b (ALIGN env s) := by
        rw [hc1]; simp only [block_split, if_pos hslack]
      have hrb : (dataOf env b + ALIGN env s) % env.modulus ≠ b := by rw [hr]; omega
      refine ⟨b, la ++ (dataOf env b + ALIGN env s) % env.modulus :: lb, hblk, hb0, hpb, hn, hpv,
        by rw [hcap, upd_same], ⟨hcd.1, by rw [hn1, hp1]; exact hcd.2⟩, ?_, by simp, ?_, ?_, ?_,
        ?_⟩
      · simp only [List.mem_cons, List.mem_append, not_or]
        exact ⟨Ne.symm hFb, hb1, Ne.symm hrb, hb2⟩
      · intro x hx
        simp only [List.mem_append, List.mem_cons] at hx
        rcases hx with hx | hx | hx
        · exact (hold x (Or.inl hx)).2.2
        · rw [hx, hr]; omega
        · exact (hold x (Or.inr hx)).2.2
      · intro x hx
        simp only [List.mem_append, List.mem_cons] at hx ⊢
        rcases hx with hx | hx | hx
        · exact Or.inl (Or.inl hx)
        · right; rw [hx, hpb]
        · exact Or.inl (Or.inr (Or.inr hx))
      · intro x hx
        simp only [List.mem_append, List.mem_cons] at hx
        have hother : ∀ y, y ∈ la ∨ y ∈ lb → y + env.HEADER + h1.capacity y ≤ env.modulus := by
          intro y hy
          have hyr : y ≠ (dataOf env b + ALIGN env s) % env.modulus := by
            intro e
            apply hrn
            rw [← e]
            simp only [List.mem_append, List.mem_cons]; tauto
          rw [hcap, upd_other _ _ (hold y hy).1, upd_other _ _ hyr]
          exact (hold y hy).2.1
        rcases hx with hx | hx | hx | hx
        · rw [hx, hcap, upd_same]; omega
        · exact hother x (Or.inl hx)
        · rw [hx, hcap, upd_other _ _ hrb, upd_same, hr, hsum]; omega
        · exact hother x (Or.inr hx)
      · intro e; simp at e
    · -- the block is handed out whole
      have hcap : h1.capacity = h.capacity := by
        rw [hc1]; simp only [block_split, if_neg hslack]
      have hcs : Cycle (block_split env h b s).2 env.FREELIST (la ++ b :: lb) := by
        simp only [block_split, if_neg hslack]; exact hc
      have hcd := cycle_detach _ env.FREELIST b la lb hcs hb0
      refine ⟨b, la ++ lb, hblk, hb0, hpb, hn, hpv, by rw [hcap]; exact hfit,
        ⟨hcd.1, by rw [hn1, hp1]; exact hcd.2⟩, ?_, by simp, ?_, ?_, ?_, ?_⟩
      · simp only [List.mem_cons, List.mem_append, not_or]
        exact ⟨Ne.symm hFb, hb1, hb2⟩
      · intro x hx
        simp only [List.mem_append] at hx
        exact (hold x hx).2.2
      · intro x hx
        simp only [List.mem_append, List.mem_cons] at hx ⊢
        tauto
      · intro x hx
        simp only [List.mem_append, List.mem_cons] at hx
        rw [hcap]
        rcases hx with hx | hx | hx
        · rw [hx]; omega
        · exact (hold x (Or.inl hx)).2.1
        · exact (hold x (Or.inr hx)).2.1
      · intro e; simp at e

/-! ## Properties of the allocator API -/

/-- C1 (failing input): on the fresh LP64 heap the request `malloc(SIZE_MAX)`
finds no free block, `block_allocate` succeeds (the operating system grants the
32 bytes asked for) and returns a block of capacity 0 and size `SIZE_MAX`, so
the assertion `block->capacity >= block->size` fails and `malloc` aborts instead
of returning `block->data`. -/
theorem malloc_size_max_aborts :
    18446744073709551615 < lp64.modulus ∧
    free_list_search lp64 heap0 18446744073709551615 = .ok 0 ∧
    (block_allocate lp64 heap0 18446744073709551615).1 = 65536 ∧
    (block_allocate lp64 heap0 18446744073709551615).2.capacity 65536 = 0 ∧
    (block_allocate lp64 heap0 18446744073709551615).2.size 65536 = 18446744073709551615 ∧
    malloc_asserts (block_allocate lp64 heap0 18446744073709551615).2 65536
      18446744073709551615 = false ∧
    malloc lp64 heap0 18446744073709551615 = .error .assertion := by
  refine ⟨by decide, rfl, by decide, by decide, by decide, by decide, rfl⟩

/-- C2 (counterexample): two LP64 runs of `p = malloc(s); free(p);
q = malloc(s')` with `1 ≤ s' ≤ s` at which the claim fails.

On the fresh heap with `s = 1024`, `s' = 512` the block of `p` is last on the
heap and meets the trim threshold, so `free` returns it to the operating system
(`SHRINKS` becomes 1, the break falls back to 65536) and the second `malloc`
grows the heap: the break rises from 65536 to 66080 and `GROWS` from 1 to 2.

On `heap2` with `s = 128`, `s' = 8` no free block fits the first request, so
`p = 65704` lies in a fresh block at 65672; `free` keeps that block and the
second `malloc` does not grow the heap, but it returns `q = 65568`: first fit
hands out the free block at 65536, which ends at 65576 after its split, before
the block of `p` starts.  The block of `q` is neither the block of `p` nor a
part of it. -/
theorem malloc_free_malloc_not_reused :
    (∃ p h1 h2 q h3, malloc lp64 heap0 1024 = .ok (p, h1) ∧ p ≠ 0 ∧
      free lp64 h1 p = .ok h2 ∧ malloc lp64 h2 512 = .ok (q, h3) ∧ q ≠ 0 ∧
      h2.counters.SHRINKS = 1 ∧ h2.brk = 65536 ∧ h3.brk = 66080 ∧
      h2.counters.GROWS = 1 ∧ h3.counters.GROWS = 2) ∧
    (malloc lp64 heap2 128 = .ok (65704, mallocHeap lp64 heap2 128) ∧
      free lp64 (mallocHeap lp64 heap2 128) 65704
        = .ok (freeHeap lp64 (mallocHeap lp64 heap2 128) 65704) ∧
      (freeHeap lp64 (mallocHeap lp64 heap2 128) 65704).counters.SHRINKS
        = (mallocHeap lp64 heap2 128).counters.SHRINKS ∧
      malloc lp64 (freeHeap lp64 (mallocHeap lp64 heap2 128) 65704) 8
        = .ok (65568, mallocHeap lp64 (freeHeap lp64 (mallocHeap lp64 heap2 128) 65704) 8) ∧
      (mallocHeap lp64 (freeHeap lp64 (mallocHeap lp64 heap2 128) 65704) 8).brk
        = (freeHeap lp64 (mallocHeap lp64 heap2 128) 65704).brk ∧
      BLOCK_FROM_POINTER lp64 65704 = 65672 ∧
      BLOCK_FROM_POINTER lp64 65568 = 65536 ∧
      dataOf lp64 65536
        + (mallocHeap lp64 (freeHeap lp64 (mallocHeap lp64 heap2 128) 65704) 8).capacity 65536
        = 65576 ∧
      65576 < 65672) :=
  ⟨⟨65568, _, _, 65568, _, rfl, by decide, rfl, rfl, by decide, by decide, by decide, by decide,
      by decide, by decide⟩,
    rfl, rfl, by decide, rfl, by decide, by decide, by decide, by decide, by decide⟩

/-- C2 (amended): round-trip reuse on a well-formed heap when the block is not
trimmed.  Let the free list be a circular list `l` through the head whose
blocks are non-null, lie below the break and contain no other header of the
list, let the head not sit at the break, let a fresh block for `s` fit in the
address space above the break with `s` rounded up without wrap, and let the
traversal bound exceed the list length by two.  If `p = malloc(s)` returns a
non-null pointer and `block_release` then refuses the block of `p` (it is not
trimmed), then the free list after that `malloc` is again a circular list `l1`
(members of `l` and possibly the remainder split off at `p + ALIGN(s)`),
`free(p)` returns and leaves `SHRINKS` unchanged, and for every `1 ≤ s' ≤ s`
the call `q = malloc(s')` returns a non-null pointer without heap growth: the
break and `GROWS` are unchanged.  The block `found` of `q` is taken from the
free list, with recorded size `s'` and capacity at least `s'`: it is the block
of `p` or a member of `l1`.  It is the block of `p` (`q = p`) whenever no
member of `l1` fits `s'` or ends where the block of `p` starts, in particular
whenever the free list `l` was empty. -/
theorem malloc_free_malloc_reuse (env : Env) (hwf : env.WF) (hH : 0 < env.HEADER)
    (h h1 : Heap) (s s' p : Nat) (l : List Nat)
    (hs' : 1 ≤ s') (hss : s' ≤ s) (hsnw : s + env.ALIGNMENT ≤ env.modulus)
    (hc : Cycle h env.FREELIST l) (hnz : ∀ x ∈ l, x ≠ 0)
    (hin : ∀ x ∈ l, x + env.HEADER + h.capacity x ≤ h.brk)
    (hsep : ∀ x ∈ l, ∀ y ∈ env.FREELIST :: l,
      ¬ (x < y ∧ y < x + env.HEADER + h.capacity x))
    (hhead : h.brk ≠ env.FREELIST)
    (htop : h.brk + env.HEADER + ALIGN env s ≤ env.modulus)
    (hfuel : l.length + 2 ≤ env.fuel)
    (hm1 : malloc env h s = .ok (p, h1)) (hp : p ≠ 0)
    (hrel : (block_release env h1.countFree (BLOCK_FROM_POINTER env p)).1 = false) :
    ∃ l1 h2 q h3 found,
      Cycle h1 env.FREELIST l1 ∧ BLOCK_FROM_POINTER env p ∉ l1 ∧
      (∀ x ∈ l1, x ∈ l ∨ x = (p + ALIGN env s) % env.modulus) ∧
      free env h1 p = .ok h2 ∧ h2.counters.SHRINKS = h1.counters.SHRINKS ∧
      malloc env h2 s' = .ok (q, h3) ∧ q ≠ 0 ∧ q = dataOf env found ∧
      h3.brk = h2.brk ∧ h3.counters.GROWS = h2.counters.GROWS ∧
      (found = BLOCK_FROM_POINTER env p ∨ found ∈ l1) ∧
      h3.size found = s' ∧ s' ≤ h3.capacity found ∧
      ((∀ x ∈ l1, h1.capacity x < ALIGN env s' ∧
          (dataOf env x + h1.capacity x) % env.modulus ≠ BLOCK_FROM_POINTER env p) → q = p) ∧
      (l = [] → q = p) := by
  have hA := hwf.align_pos
  obtain ⟨b, l1, hblk, hb0, hpb, hdn, hdp, hcap, hc1, hbl, hlen, hnz1, hmem1, hgeo1, hemp⟩ :=
    malloc_free_list env hwf hH h h1 s p l hc hnz hin hsep hhead htop hm1 hp
  have hal : s' ≤ ALIGN env s' := ALIGN_ge env hA (by omega)
  have hmono : ALIGN env s' ≤ ALIGN env s := ALIGN_mono env hss (by omega)
  rw [hblk] at hrel ⊢
  obtain ⟨h2, q, h3, found, c1, c2, c3, c4, c5, c6, c7, c8, c9, c10, c11⟩ :=
    free_then_malloc env hH h1 s' p b l1 hs' hal hp hblk hpb hb0 (le_trans hmono hcap) hdn hdp
      hc1 hbl hnz1 hgeo1 (by omega) hrel
  refine ⟨l1, h2, q, h3, found, hc1, fun e => hbl (List.mem_cons_of_mem _ e), hmem1,
    c1, c2, c3, c4, c5, c6, c7, c8, c9, c10, c11, ?_⟩
  intro hl
  apply c11
  rw [hemp hl]
  intro x hx
  simp at hx

/-- Witness for C2 (amended).  On `heap2`, whose free list holds the block at
65536, `p = malloc(8)` returns 65568 from that block, which is followed by a
live block; `free(p)` returns and `q = malloc(8)` returns a non-null pointer
without heap growth.  On `heap4` the block of `p = malloc(2048)` meets the trim
threshold but is not last on the heap: it is not trimmed, and
`q = malloc(1024)` returns `q = p = 65568` without heap growth.  On the fresh
heap, with an empty free list, `p = malloc(64); free(p); q = malloc(8)` returns
`q = p = 65568` without heap growth. -/
theorem malloc_free_malloc_reuse_witness :
    (∃ l1 h2 q h3 found, Cycle (mallocHeap lp64 heap2 8) 4096 l1 ∧
      free lp64 (mallocHeap lp64 heap2 8) 65568 = .ok h2 ∧
      malloc lp64 h2 8 = .ok (q, h3) ∧ q ≠ 0 ∧ q = dataOf lp64 found ∧
      h3.brk = h2.brk ∧ h3.counters.GROWS = h2.counters.GROWS ∧
      (found = BLOCK_FROM_POINTER lp64 65568 ∨ found ∈ l1)) ∧
    (lp64.TRIM_THRESHOLD ≤ (mallocHeap lp64 heap4 2048).capacity 65536 ∧
      ∃ h2 h3, free lp64 (mallocHeap lp64 heap4 2048) 65568 = .ok h2 ∧
        malloc lp64 h2 1024 = .ok (65568, h3) ∧ h3.brk = h2.brk ∧
        h3.counters.GROWS = h2.counters.GROWS) ∧
    (∃ h2 h3, free lp64 (mallocHeap lp64 heap0 64) 65568 = .ok h2 ∧
      malloc lp64 h2 8 = .ok (65568, h3) ∧ h3.brk = h2.brk ∧
      h3.counters.GROWS = h2.counters.GROWS) := by
  obtain ⟨l1, h2, q, h3, found, a1, -, -, a3, -, a5, a6, a7, a8, a9, a10, -⟩ :=
    malloc_free_malloc_reuse lp64 lp64_wf (by decide) heap2 (mallocHeap lp64 heap2 8) 8 8 65568
      [65536] (by decide) (by decide) (by decide) (by decide) (by decide) (by decide)
      (by decide) (by decide) (by decide) (by decide) rfl (by decide) (by decide)
  obtain ⟨k1, f2, r, f3, -, -, d2, d3, d4, -, d6, -, -, d9, d10, -, -, -, d14, -⟩ :=
    malloc_free_malloc_reuse lp64 lp64_wf (by decide) heap4 (mallocHeap lp64 heap4 2048) 2048
      1024 65568 [65536] (by decide) (by decide) (by decide) (by decide) (by decide)
      (by decide) (by decide) (by decide) (by decide) (by decide) rfl (by decide) (by decide)
  obtain ⟨-, g2, q2, g3, -, -, -, -, b3, -, b5, -, -, b8, b9, -, -, -, -, b14⟩ :=
    malloc_free_malloc_reuse lp64 lp64_wf (by decide) heap0 (mallocHeap lp64 heap0 64) 64 8 65568
      [] (by decide) (by decide) (by decide) (by decide) (by decide) (by decide)
      (by decide) (by decide) (by decide) (by decide) rfl (by decide) (by decide)
  have hq : q2 = 65568 := b14 rfl
  subst hq
  have hr : r = 65568 := by
    apply d14
    intro x hx
    rcases d3 x hx with e | e
    · simp only [List.mem_singleton] at e
      rw [e] at hx
      exact absurd hx d2
    · have e2 : x = 67616 := by rw [e]; decide
      rw [e2]
      decide
  subst hr
  exact ⟨⟨l1, h2, q, h3, found, a1, a3, a5, a6, a7, a8, a9, a10⟩,
    ⟨by decide, f2, f3, d4, d6, d9, d10⟩, ⟨g2, g3, b3, b5, b8, b9⟩⟩

/-- C4: for a non-null pointer and `0 < size ≤ block.capacity`, `realloc` returns
the same pointer, records `size` in the block, and leaves every capacity, link,
data byte, every other recorded size, the break and every counter except
`REALLOCS` unchanged. -/
theorem realloc_in_place (env : Env) (hwf : env.WF) (h : Heap) (ptr size : Nat)
    (hptr : ptr ≠ 0) (hlt : ptr < env.modulus) (hpos : 0 < size)
    (hfit : size ≤ h.capacity (BLOCK_FROM_POINTER env ptr)) :
    ∃ h1, realloc env h ptr size = .ok (ptr, h1) ∧
      h1.size (BLOCK_FROM_POINTER env ptr) = size ∧
      (∀ b, b ≠ BLOCK_FROM_POINTER env ptr → h1.size b = h.size b) ∧
      h1.capacity = h.capacity ∧ h1.prev = h.prev ∧ h1.next = h.next ∧
      h1.data = h.data ∧ h1.brk = h.brk ∧
      h1.counters.MALLOCS = h.counters.MALLOCS ∧ h1.counters.FREES = h.counters.FREES ∧
      h1.counters.CALLOCS = h.counters.CALLOCS ∧ h1.counters.GROWS = h.counters.GROWS ∧
      h1.counters.SHRINKS = h.counters.SHRINKS ∧ h1.counters.SPLITS = h.counters.SPLITS ∧
      h1.counters.MERGES = h.counters.MERGES ∧ h1.counters.BLOCKS = h.counters.BLOCKS ∧
      h1.counters.REQUESTED = h.counters.REQUESTED ∧
      h1.counters.HEAP_SIZE = h.counters.HEAP_SIZE ∧
      h1.counters.REALLOCS = h.counters.REALLOCS + 1 := by
  have hsz : size ≠ 0 := by omega
  refine ⟨{ h.countRealloc with
    size := upd h.size (BLOCK_FROM_POINTER env ptr) size }, ?_, ?_⟩
  · have hfit2 : h.capacity (BLOCK_FROM_POINTER env ptr) ≥ size := hfit
    simp [realloc, hptr, hsz, hfit2, dataOf_BLOCK_FROM_POINTER env hwf hlt, Heap.countRealloc]
  · refine ⟨upd_same _ _ _, fun b hb => upd_other _ _ hb, ?_⟩
    simp [Heap.countRealloc]

/-- Witness for C4: shrinking the 8-byte block of the LP64 heap `heap0` after
`block_allocate` to 5 bytes. -/
theorem realloc_in_place_witness :
    ∃ h1, realloc lp64 (block_allocate lp64 heap0 8).2 65568 5 = .ok (65568, h1) ∧
      h1.size 65536 = 5 ∧ h1.capacity 65536 = 8 := by
  obtain ⟨h1, hr, hs, -, hc, -⟩ :=
    realloc_in_place lp64 lp64_wf (block_allocate lp64 heap0 8).2 65568 5
      (by decide) (by decide) (by decide) (by decide)
  refine ⟨h1, hr, ?_, ?_⟩
  · have : BLOCK_FROM_POINTER lp64 65568 = 65536 := by decide
    rw [this] at hs; exact hs
  · rw [hc]; decide

/-- C5 (failing input): `realloc(p, 64)` on the LP64 heap with one live 8-byte
block, when the free list is empty and the operating system refuses to grow
the heap.  The inner `malloc(64)` returns NULL, yet `realloc` does not stop:
it copies through the header computed from NULL (the byte 170 of the old block
is stored at address 0), passes the old pointer to `free` (`FREES` becomes 1
and the old block is linked into the free list), and only then returns. -/
theorem realloc_exhausted_uses_null :
    heap1.capacity (BLOCK_FROM_POINTER lp64Full 65568) < 64 ∧
    free_list_search lp64Full heap1.countRealloc 64 = .ok 0 ∧
    malloc lp64Full heap1.countRealloc 64 = .ok (0, heap1.countRealloc) ∧
    ∃ h2, realloc lp64Full heap1 65568 64 = .ok (0, h2) ∧
      heap1.data 0 = 0 ∧ h2.data 0 = 170 ∧
      heap1.counters.FREES = 0 ∧ h2.counters.FREES = 1 ∧
      heap1.next 4096 = 4096 ∧ h2.next 4096 = 65536 ∧
      heap1.next 65536 = 65536 ∧ h2.next 65536 = 4096 :=
  ⟨by decide, rfl, rfl, _, rfl, by decide, by decide, by decide, by decide, by decide,
    by decide, by decide, by decide⟩

/-- C6 (counterexample): `calloc(2^63 + 1, 2)` on the fresh LP64 heap, whose
product `2^64 + 2` does not fit in `size_t`, returns a non-null pointer to a
freshly allocated block of recorded size 2 and capacity 8. -/
theorem calloc_overflow_allocates :
    lp64.modulus ≤ 9223372036854775809 * 2 ∧
    ∃ hc, calloc lp64 heap0 9223372036854775809 2 = .ok (65568, hc) ∧
      hc.size 65536 = 2 ∧ hc.capacity 65536 = 8 ∧ hc.brk = 65576 ∧
      hc.counters.BLOCKS = 1 ∧ hc.counters.GROWS = 1 :=
  ⟨by decide, _, rfl, by decide, by decide, by decide, by decide, by decide⟩

/-- C6 (amended): `calloc` performs no overflow check.  For every `nmemb` and
`size`, also when the product does not fit in `size_t`, it does what
`malloc` does on the wrapped product `nmemb * size mod 2^w`: it aborts or
diverges when that `malloc` does, returns NULL (leaving the heap as that
`malloc` left it) exactly when that `malloc` returns NULL, in particular when
the wrapped product is zero, and otherwise returns that `malloc`'s pointer to a
block whose recorded size is the wrapped product, with the same break and block
count. -/
theorem calloc_wrapped_product (env : Env) (h : Heap) (nmemb size : Nat) :
    (∀ e, malloc env h (nmemb * size % env.modulus) = .error e →
      calloc env h nmemb size = .error e) ∧
    (∀ hm, malloc env h (nmemb * size % env.modulus) = .ok (0, hm) →
      calloc env h nmemb size = .ok (0, hm)) ∧
    (nmemb * size % env.modulus = 0 → calloc env h nmemb size = .ok (0, h)) ∧
    (∀ p hm, p ≠ 0 → malloc env h (nmemb * size % env.modulus) = .ok (p, hm) →
      ∃ hc, calloc env h nmemb size = .ok (p, hc) ∧ hc.brk = hm.brk ∧
        hc.counters.BLOCKS = hm.counters.BLOCKS ∧
        ∃ b, b ≠ 0 ∧ p = dataOf env b ∧ hc.size b = nmemb * size % env.modulus ∧
          nmemb * size % env.modulus ≤ hc.capacity b) := by
  refine ⟨?_, ?_, ?_, ?_⟩
  · intro e he
    simp [calloc, he]
  · intro hm he
    simp [calloc, he]
  · intro h0
    simp [calloc, h0, malloc, init_counters]
  · intro p hm hp he
    obtain ⟨b, hb, hpb, hsz, hcap, -, -⟩ := malloc_post env h _ p hm he hp
    refine ⟨{ memset hm p 0 (nmemb * size % env.modulus) with
      counters := { hm.counters with CALLOCS := hm.counters.CALLOCS + 1 } }, ?_, rfl, rfl,
      b, hb, hpb, hsz, hcap⟩
    simp [calloc, he, hp, memset]

/-- C7: when `nmemb * size` does not overflow, `calloc(nmemb, size)` returns
what `malloc(nmemb * size)` returns.  If that is NULL (in particular when the
product is zero) the heap is exactly as `malloc` left it: no byte written,
`CALLOCS` not incremented.  If it is a non-null pointer `p`, the bytes at
offsets `0 .. nmemb*size - 1` from `p` are zero and lie within the capacity of
the block, every other byte, every header field and the break are as `malloc`
left them, and of the counters only `CALLOCS` changed, by one. -/
theorem calloc_is_malloc_then_zero (env : Env) (h : Heap) (nmemb size : Nat)
    (hprod : nmemb * size < env.modulus) :
    (∀ e, malloc env h (nmemb * size) = .error e → calloc env h nmemb size = .error e) ∧
    (∀ hm, malloc env h (nmemb * size) = .ok (0, hm) →
      calloc env h nmemb size = .ok (0, hm)) ∧
    (nmemb * size = 0 → calloc env h nmemb size = .ok (0, h)) ∧
    (∀ p hm, p ≠ 0 → malloc env h (nmemb * size) = .ok (p, hm) →
      ∃ hc, calloc env h nmemb size = .ok (p, hc) ∧
        (∀ i, i < nmemb * size → hc.data (p + i) = 0) ∧
        (∀ a, ¬ (p ≤ a ∧ a < p + nmemb * size) → hc.data a = hm.data a) ∧
        hc.capacity = hm.capacity ∧ hc.size = hm.size ∧ hc.prev = hm.prev ∧
        hc.next = hm.next ∧ hc.brk = hm.brk ∧
        hc.counters = { hm.counters with CALLOCS := hm.counters.CALLOCS + 1 } ∧
        ∃ b, p = dataOf env b ∧ nmemb * size ≤ hc.capacity b) := by
  have hmod : nmemb * size % env.modulus = nmemb * size := Nat.mod_eq_of_lt hprod
  refine ⟨?_, ?_, ?_, ?_⟩
  · intro e he
    simp [calloc, hmod, he]
  · intro hm he
    simp [calloc, hmod, he]
  · intro h0
    simp [calloc, hmod, h0, malloc, init_counters]
  · intro p hm hp he
    obtain ⟨b, -, hpb, -, hcap, -, -⟩ := malloc_post env h _ p hm he hp
    refine ⟨{ memset hm p 0 (nmemb * size) with
      counters := { hm.counters with CALLOCS := hm.counters.CALLOCS + 1 } }, ?_, ?_, ?_,
      rfl, rfl, rfl, rfl, rfl, rfl, b, hpb, hcap⟩
    · simp [calloc, hmod, he, hp, memset]
    · intro i hi
      simp [memset, hi]
    · intro a ha
      simp only [memset, ha, if_false]

/-- Witness for C7: `calloc(4, 2)` on the fresh LP64 heap. -/
theorem calloc_is_malloc_then_zero_witness :
    4 * 2 < lp64.modulus ∧
    ∃ hc, calloc lp64 heap0 4 2 = .ok (65568, hc) ∧
      ∀ i, i < 4 * 2 → hc.data (65568 + i) = 0 := by
  refine ⟨by decide, ?_⟩
  obtain ⟨hc, h1, h2, -⟩ :=
    (calloc_is_malloc_then_zero lp64 heap0 4 2 (by decide)).2.2.2 65568 _ (by decide)
      malloc_heap0_eq_heap1
  exact ⟨hc, h1, h2⟩

/-- C8: `realloc(NULL, size)` returns what `malloc(size)` returns and
`realloc(p, 0)` with `p` non-null returns NULL after doing what `free(p)` does;
in both cases the resulting heap is the one `malloc` / `free` produce with only
the `REALLOCS` counter incremented, so the break, the headers, the free list and
all other counters are affected identically. -/
theorem realloc_null_zero_alias (env : Env) (h : Heap) (ptr size : Nat) (hptr : ptr ≠ 0) :
    realloc env h 0 size = (malloc env h size).map (fun r => (r.1, r.2.countRealloc)) ∧
    realloc env h ptr 0 = (free env h ptr).map (fun g => (0, g.countRealloc)) ∧
    ∀ g : Heap, g.countRealloc.brk = g.brk ∧ g.countRealloc.capacity = g.capacity ∧
      g.countRealloc.size = g.size ∧ g.countRealloc.prev = g.prev ∧
      g.countRealloc.next = g.next ∧ g.countRealloc.data = g.data ∧
      g.countRealloc.counters.MALLOCS = g.counters.MALLOCS ∧
      g.countRealloc.counters.REQUESTED = g.counters.REQUESTED ∧
      g.countRealloc.counters.GROWS = g.counters.GROWS ∧
      g.countRealloc.counters.BLOCKS = g.counters.BLOCKS ∧
      g.countRealloc.counters.HEAP_SIZE = g.counters.HEAP_SIZE ∧
      g.countRealloc.counters.FREES = g.counters.FREES ∧
      g.countRealloc.counters.SHRINKS = g.counters.SHRINKS ∧
      g.countRealloc.counters.SPLITS = g.counters.SPLITS ∧
      g.countRealloc.counters.MERGES = g.counters.MERGES ∧
      g.countRealloc.counters.CALLOCS = g.counters.CALLOCS := by
  refine ⟨?_, ?_, fun g => ⟨rfl, rfl, rfl, rfl, rfl, rfl, rfl, rfl, rfl, rfl, rfl, rfl, rfl,
    rfl, rfl, rfl⟩⟩
  · have := malloc_countRealloc env h size
    simpa [realloc, Heap.countRealloc] using this
  · have hf := free_countRealloc env h ptr
    have hr : realloc env h ptr 0 =
        match free env h.countRealloc ptr with
        | .error e => .error e
        | .ok h1 => .ok (0, h1) := by
      simp [realloc, hptr, Heap.countRealloc]
    rw [hr, hf]
    cases free env h ptr <;> rfl

/-- Witness for C8: the two aliases on the LP64 heap with one live block. -/
theorem realloc_null_zero_alias_witness :
    (65568 : Nat) ≠ 0 ∧
    realloc lp64 heap1 0 64 = (malloc lp64 heap1 64).map (fun r => (r.1, r.2.countRealloc)) ∧
    realloc lp64 heap1 65568 0 = (free lp64 heap1 65568).map (fun g => (0, g.countRealloc)) :=
  ⟨by decide, (realloc_null_zero_alias lp64 heap1 65568 64 (by decide)).1,
    (realloc_null_zero_alias lp64 heap1 65568 64 (by decide)).2.1⟩

/-- C9: when `free_list_search` finds no block and the heap growth primitive
returns the failure sentinel, `block_allocate` returns NULL and `malloc` returns
NULL, both leaving the whole heap state (headers, break, free list and every
counter) exactly as it was. -/
theorem malloc_failure_atomic (env : Env) (h : Heap) (size : Nat)
    (hsize : size ≠ 0)
    (hsearch : free_list_search env h size = .ok 0)
    (hsbrk : sbrk env h (toIntptr env ((env.HEADER + ALIGN env size) % env.modulus))
      = (SBRK_FAILURE env, h)) :
    block_allocate env h size = (0, h) ∧ malloc env h size = .ok (0, h) := by
  have hb := block_allocate_fail env h size hsbrk
  refine ⟨hb, ?_⟩
  simp [malloc, init_counters, hsize, hsearch, hb]

/-- Witness for C9: `malloc(64)` on the fresh heap when the operating system
refuses to grow it. -/
theorem malloc_failure_atomic_witness :
    block_allocate lp64Full heap0 64 = (0, heap0) ∧ malloc lp64Full heap0 64 = .ok (0, heap0) :=
  malloc_failure_atomic lp64Full heap0 64 (by decide) rfl rfl

/-- C10 (failing input): `block_allocate(SIZE_MAX)` on the fresh LP64 heap asks
the operating system for 32 bytes, succeeds, and returns a block of capacity 0:
not a multiple of the alignment unit that is `≥ SIZE_MAX`. -/
theorem block_allocate_size_max_capacity :
    18446744073709551615 < lp64.modulus ∧
    sbrk lp64 heap0 32 = (65536, { heap0 with brk := 65568 }) ∧
    (block_allocate lp64 heap0 18446744073709551615).1 = 65536 ∧
    (block_allocate lp64 heap0 18446744073709551615).2.brk = 65568 ∧
    (block_allocate lp64 heap0 18446744073709551615).2.counters.HEAP_SIZE = 32 ∧
    (block_allocate lp64 heap0 18446744073709551615).2.size 65536 = 18446744073709551615 ∧
    (block_allocate lp64 heap0 18446744073709551615).2.capacity 65536 = 0 ∧
    ¬ (18446744073709551615 ≤
      (block_allocate lp64 heap0 18446744073709551615).2.capacity 65536) := by
  refine ⟨by decide, rfl, by decide, by decide, by decide, by decide, by decide, by decide⟩

/-- C11: when the heap growth primitive grants the shrink (and, as its
contract says, the break is not the failure sentinel), for a block that lies
in the address space and whose extent fits the signed delta of the primitive,
`block_release(block)` returns true exactly when `block` is non-null, its
capacity meets `TRIM_THRESHOLD` and `block.data + block.capacity` is the heap
break; and whenever it returns true the break and `HEAP_SIZE` have decreased
by exactly `sizeof(Block) + block.capacity`, `BLOCKS` has decreased by one and
`SHRINKS` has increased by one. -/
theorem block_release_exact (env : Env) (h : Heap) (block : Nat)
    (hgrant : env.sbrkOk h.brk (-((env.HEADER + h.capacity block : Nat) : Int)) = true)
    (hsent : h.brk ≠ SBRK_FAILURE env) (hH : 0 < env.HEADER)
    (hin : block + env.HEADER + h.capacity block < env.modulus)
    (hsigned : env.HEADER + h.capacity block ≤ env.modulus / 2) :
    ((block_release env h block).1 = true ↔
      block ≠ 0 ∧ env.TRIM_THRESHOLD ≤ h.capacity block ∧
        dataOf env block + h.capacity block = h.brk) ∧
    ((block_release env h block).1 = true →
      (block_release env h block).2.brk + (env.HEADER + h.capacity block) = h.brk ∧
      (block_release env h block).2.counters.HEAP_SIZE
        = h.counters.HEAP_SIZE - ((env.HEADER + h.capacity block : Nat) : Int) ∧
      (block_release env h block).2.counters.BLOCKS = h.counters.BLOCKS - 1 ∧
      (block_release env h block).2.counters.SHRINKS = h.counters.SHRINKS + 1) := by
  have hd : dataOf env block = block + env.HEADER := Nat.mod_eq_of_lt (by omega)
  have hend : (dataOf env block + h.capacity block) % env.modulus
      = dataOf env block + h.capacity block := Nat.mod_eq_of_lt (by omega)
  have hneg := toIntptr_neg env (a := env.HEADER + h.capacity block) (by omega) (by omega)
    hsigned
  have hne : (-((env.HEADER + h.capacity block : Nat) : Int)) ≠ 0 := by omega
  have hs := sbrk_granted env h _ hne hgrant
  have hall : (env.HEADER + h.capacity block) % env.modulus = env.HEADER + h.capacity block :=
    Nat.mod_eq_of_lt (by omega)
  by_cases hb : block = 0
  · simp [block_release, hb]
  by_cases hc : h.capacity block < env.TRIM_THRESHOLD
  · have hr : block_release env h block = (false, h) := by
      simp only [block_release, hb, hc, if_true, if_false]
    rw [hr]
    refine ⟨⟨fun hf => by simp at hf, fun hx => by omega⟩, fun hf => by simp at hf⟩
  by_cases ht : h.brk = dataOf env block + h.capacity block
  · have hr : block_release env h block = (true, { h with
        brk := (h.brk + -((env.HEADER + h.capacity block : Nat) : Int)).toNat,
        counters := { h.counters with
          BLOCKS := h.counters.BLOCKS - 1,
          SHRINKS := h.counters.SHRINKS + 1,
          HEAP_SIZE := h.counters.HEAP_SIZE - ((env.HEADER + h.capacity block : Nat) : Int) } })
        := by
      have hcond : ¬ (h.brk ≠ (dataOf env block + h.capacity block) % env.modulus) := by
        rw [hend]; exact not_not.mpr ht
      have hneg2 := hneg
      rw [hall] at hneg2
      simp only [block_release, hb, hc, if_false, sbrk_zero, hcond, hall, hneg2, hs, hsent]
    rw [hr]
    refine ⟨⟨fun _ => ⟨hb, by omega, ht.symm⟩, fun _ => rfl⟩, fun _ => ⟨?_, rfl, rfl, rfl⟩⟩
    show (h.brk + -((env.HEADER + h.capacity block : Nat) : Int)).toNat
        + (env.HEADER + h.capacity block) = h.brk
    rw [hd] at ht
    omega
  · have hr : block_release env h block = (false, h) := by
      have hcond : h.brk ≠ (dataOf env block + h.capacity block) % env.modulus := by
        rw [hend]; exact ht
      simp only [block_release, hb, hc, if_false, sbrk_zero]
      rw [if_pos hcond]
    rw [hr]
    refine ⟨⟨fun hf => by simp at hf, fun hx => absurd hx.2.2.symm ht⟩, fun hf => by simp at hf⟩

/-- Witness for C11: releasing the 1024-byte block that `malloc(1024)` put at
the end of the fresh LP64 heap. -/
theorem block_release_exact_witness :
    ((block_release lp64 (mallocHeap lp64 heap0 1024) 65536).1 = true ↔
      65536 ≠ 0 ∧ lp64.TRIM_THRESHOLD ≤ (mallocHeap lp64 heap0 1024).capacity 65536 ∧
        dataOf lp64 65536 + (mallocHeap lp64 heap0 1024).capacity 65536
          = (mallocHeap lp64 heap0 1024).brk) ∧
    (block_release lp64 (mallocHeap lp64 heap0 1024) 65536).1 = true ∧
    (mallocHeap lp64 heap0 1024).brk = 66592 ∧
    (block_release lp64 (mallocHeap lp64 heap0 1024) 65536).2.brk = 65536 :=
  ⟨(block_release_exact lp64 (mallocHeap lp64 heap0 1024) 65536 (by decide) (by decide)
      (by decide) (by decide) (by decide)).1, by decide, by decide, by decide⟩

/-- C12: for `dst` and `src` with `dst.data + dst.capacity` equal to the address
of `src` (two distinct blocks whose joint extent fits `size_t`),
`block_merge(dst, src)` returns true, the capacity of `dst` becomes
`dst.capacity + sizeof(Block) + src.capacity`, `MERGES` increases and `BLOCKS`
decreases by one.  If `dst` was detached (`dst.next == dst`) and `src` was a
member of a well-formed list with predecessor `P` and successor `N`, then
afterwards `P.next == dst`, `N.prev == dst`, `dst.prev == P` and
`dst.next == N`; if `src` was itself detached, `dst` ends detached. -/
theorem block_merge_adjacent (env : Env) (h : Heap) (dst src : Nat)
    (hadj : (dataOf env dst + h.capacity dst) % env.modulus = src)
    (hne : src ≠ dst)
    (hfit : h.capacity dst + env.HEADER + h.capacity src < env.modulus) :
    (block_merge env h dst src).1 = true ∧
    (block_merge env h dst src).2.capacity dst
      = h.capacity dst + env.HEADER + h.capacity src ∧
    (block_merge env h dst src).2.counters.MERGES = h.counters.MERGES + 1 ∧
    (block_merge env h dst src).2.counters.BLOCKS = h.counters.BLOCKS - 1 ∧
    (h.next dst = dst → h.prev src ≠ src →
      h.next (h.prev src) = src → h.prev (h.next src) = src →
      h.prev (h.next (h.next src)) = h.next src →
      (block_merge env h dst src).2.next (h.prev src) = dst ∧
      (block_merge env h dst src).2.prev (h.next src) = dst ∧
      (block_merge env h dst src).2.prev dst = h.prev src ∧
      (block_merge env h dst src).2.next dst = h.next src) ∧
    (h.next dst = dst → h.next src = src → h.prev src = src →
      (block_merge env h dst src).2.next dst = dst ∧
      (block_merge env h dst src).2.prev dst = dst) := by
  have hm : (h.capacity dst + (env.HEADER + h.capacity src) % env.modulus) % env.modulus
      = h.capacity dst + env.HEADER + h.capacity src := by
    rw [Nat.mod_eq_of_lt (show env.HEADER + h.capacity src < env.modulus by omega),
      Nat.mod_eq_of_lt (by omega)]
    omega
  refine ⟨?_, ?_, ?_, ?_, ?_, ?_⟩
  · simp [block_merge, hadj]
  · simp only [block_merge, hadj, if_true, hm]
    split_ifs <;> simp [upd_same]
  · simp only [block_merge, hadj, if_true]
    split_ifs <;> rfl
  · simp only [block_merge, hadj, if_true]
    split_ifs <;> rfl
  · intro hd hP hPn hNp hNwf
    have hPd : h.prev src ≠ dst := by
      intro e; rw [e, hd] at hPn; exact hne hPn.symm
    have hNs : h.next src ≠ src := by
      intro e; rw [e] at hNp; exact hP hNp
    have hNd : h.next src ≠ dst := by
      intro e
      rw [e, hd] at hNwf
      rw [e, hNwf] at hNp
      exact hne hNp.symm
    have hsP : src ≠ h.prev src := fun e => hP e.symm
    simp only [block_merge, hadj, if_true, hd, upd_same, upd_other _ _ hne, upd_other _ _ hsP,
      upd_other _ _ hPd, upd_other _ _ hNd.symm, and_self]
  · intro hd hsn hsp
    simp only [block_merge, hadj, if_true, hd, hsn, hsp, upd_same, upd_other _ _ hne, and_self]

/-- Witness for C12: merging the detached block at 65536 of `heap3` with the
free block at 65576 that follows it; the merged block takes the place of the
free block between the list head and itself. -/
theorem block_merge_adjacent_witness :
    (dataOf lp64 65536 + heap3.capacity 65536) % lp64.modulus = 65576 ∧
    (block_merge lp64 heap3 65536 65576).1 = true ∧
    (block_merge lp64 heap3 65536 65576).2.capacity 65536 = 8 + 32 + 16 ∧
    (block_merge lp64 heap3 65536 65576).2.next 4096 = 65536 ∧
    (block_merge lp64 heap3 65536 65576).2.prev 4096 = 65536 ∧
    (block_merge lp64 heap3 65536 65576).2.next 65536 = 4096 ∧
    (block_merge lp64 heap3 65536 65576).2.prev 65536 = 4096 := by
  obtain ⟨h1, h2, -, -, h5, -⟩ :=
    block_merge_adjacent lp64 heap3 65536 65576 (by decide) (by decide) (by decide)
  obtain ⟨q1, q2, q3, q4⟩ := h5 (by decide) (by decide) (by decide) (by decide) (by decide)
  exact ⟨by decide, h1, h2, q1, q2, q4, q3⟩

/-- C13: for a non-null block that lies in the address space, whose list
neighbours `P` and `N` are other blocks outside its extent, and a size with
`block.capacity > ALIGN(size) + sizeof(Block)`, `block_split(block, size)`
returns `block`; the new block at `block.data + ALIGN(size)` has capacity
`block.capacity - ALIGN(size) - sizeof(Block)`, `block.capacity == ALIGN(size)`,
`block.size == size`, the new block is linked between `block` and `N`, and
`SPLITS` and `BLOCKS` have each increased by one.  After the `block_detach(block)`
that `malloc` performs next, the new block is linked between `P` and `N`, the
position `block` held, and `block` is detached. -/
theorem block_split_slack (env : Env) (h : Heap) (block size : Nat)
    (hH : 0 < env.HEADER) (hb0 : block ≠ 0)
    (hin : block + env.HEADER + h.capacity block ≤ env.modulus)
    (hslack : ALIGN env size + env.HEADER < h.capacity block)
    (hN : h.next block < block ∨ block + env.HEADER + h.capacity block ≤ h.next block)
    (hP : h.prev block < block ∨ block + env.HEADER + h.capacity block ≤ h.prev block) :
    (block_split env h block size).1 = block ∧
    (block_split env h block size).2.capacity (dataOf env block + ALIGN env size)
      = h.capacity block - ALIGN env size - env.HEADER ∧
    (block_split env h block size).2.capacity block = ALIGN env size ∧
    (block_split env h block size).2.size block = size ∧
    (block_split env h block size).2.next block = dataOf env block + ALIGN env size ∧
    (block_split env h block size).2.prev (dataOf env block + ALIGN env size) = block ∧
    (block_split env h block size).2.next (dataOf env block + ALIGN env size) = h.next block ∧
    (block_split env h block size).2.prev (h.next block) = dataOf env block + ALIGN env size ∧
    (block_split env h block size).2.counters.SPLITS = h.counters.SPLITS + 1 ∧
    (block_split env h block size).2.counters.BLOCKS = h.counters.BLOCKS + 1 ∧
    (block_detach (block_split env h block size).2 block).2.next (h.prev block)
      = dataOf env block + ALIGN env size ∧
    (block_detach (block_split env h block size).2 block).2.prev
      (dataOf env block + ALIGN env size) = h.prev block ∧
    (block_detach (block_split env h block size).2 block).2.next
      (dataOf env block + ALIGN env size) = h.next block ∧
    (block_detach (block_split env h block size).2 block).2.prev (h.next block)
      = dataOf env block + ALIGN env size ∧
    (block_detach (block_split env h block size).2 block).2.next block = block ∧
    (block_detach (block_split env h block size).2 block).2.prev block = block := by
  have hd : dataOf env block = block + env.HEADER := Nat.mod_eq_of_lt (by omega)
  have hsum : (ALIGN env size + env.HEADER) % env.modulus = ALIGN env size + env.HEADER :=
    Nat.mod_eq_of_lt (by omega)
  have hr : (dataOf env block + ALIGN env size) % env.modulus
      = dataOf env block + ALIGN env size := Nat.mod_eq_of_lt (by omega)
  have hrb : dataOf env block + ALIGN env size ≠ block := by omega
  have hbr : block ≠ dataOf env block + ALIGN env size := by omega
  have hrN : dataOf env block + ALIGN env size ≠ h.next block := by omega
  have hNr : h.next block ≠ dataOf env block + ALIGN env size := by omega
  have hrP : dataOf env block + ALIGN env size ≠ h.prev block := by omega
  have hPr : h.prev block ≠ dataOf env block + ALIGN env size := by omega
  have hNb : h.next block ≠ block := by omega
  have hbN : block ≠ h.next block := by omega
  have hPb : h.prev block ≠ block := by omega
  have hbP : block ≠ h.prev block := by omega
  have hrest : h.capacity block - (ALIGN env size + env.HEADER)
      = h.capacity block - ALIGN env size - env.HEADER := by omega
  simp only [block_split, block_detach, hsum, gt_iff_lt, hslack, if_true, hr, hb0, ne_eq, not_false_eq_true,
    upd_same, upd_other _ _ hrb, upd_other _ _ hbr, upd_other _ _ hrN, upd_other _ _ hNr,
    upd_other _ _ hrP, upd_other _ _ hPr, upd_other _ _ hNb, upd_other _ _ hbN,
    upd_other _ _ hPb, upd_other _ _ hbP, hrest, and_self]

/-- Witness for C13: splitting the free 64-byte block of `heap2` for a request
of 8 bytes leaves a remainder of capacity 24 at 65576, which after the detach
sits between the list head and itself. -/
theorem block_split_slack_witness :
    ALIGN lp64 8 + lp64.HEADER < heap2.capacity 65536 ∧
    (block_split lp64 heap2 65536 8).2.capacity 65576 = 24 ∧
    (block_split lp64 heap2 65536 8).2.capacity 65536 = 8 ∧
    (block_split lp64 heap2 65536 8).2.next 65536 = 65576 ∧
    (block_detach (block_split lp64 heap2 65536 8).2 65536).2.next 4096 = 65576 ∧
    (block_detach (block_split lp64 heap2 65536 8).2 65536).2.prev 65576 = 4096 := by
  obtain ⟨-, h2, h3, -, h5, -, -, -, -, -, h11, h12, -⟩ :=
    block_split_slack lp64 heap2 65536 8 (by decide) (by decide) (by decide) (by decide)
      (Or.inl (by decide)) (Or.inl (by decide))
  exact ⟨by decide, h2, h3, h5, h11, h12⟩

/-- C14: for a non-null block that lies in the address space, whose capacity
is a multiple of the alignment unit, and a size with `size ≤ block.capacity`.
If `block_split` splits (`block.capacity > ALIGN(size) + sizeof(Block)`), both
resulting blocks keep `capacity ≥ size` and tile the original byte range:
`block.data + block.capacity` is the header address of the remainder and
`remainder.data + remainder.capacity` is the original `block.data +
block.capacity`.  Otherwise the capacities, the links, the break and the
counters are unchanged, only `block.size` is updated, and `capacity ≥ size`
still holds. -/
theorem block_split_valid (env : Env) (hwf : env.WF) (h : Heap) (block size : Nat)
    (hH : 0 < env.HEADER) (hb0 : block ≠ 0)
    (hin : block + env.HEADER + h.capacity block ≤ env.modulus)
    (hmul : env.ALIGNMENT ∣ h.capacity block) (hsz : size ≤ h.capacity block) :
    (ALIGN env size + env.HEADER < h.capacity block →
      (block_split env h block size).2.size block = size ∧
      size ≤ (block_split env h block size).2.capacity block ∧
      (block_split env h block size).2.size (dataOf env block + ALIGN env size)
        ≤ (block_split env h block size).2.capacity (dataOf env block + ALIGN env size) ∧
      dataOf env block + (block_split env h block size).2.capacity block
        = dataOf env block + ALIGN env size ∧
      dataOf env (dataOf env block + ALIGN env size)
          + (block_split env h block size).2.capacity (dataOf env block + ALIGN env size)
        = dataOf env block + h.capacity block) ∧
    (¬ (ALIGN env size + env.HEADER < h.capacity block) →
      (block_split env h block size).2.capacity = h.capacity ∧
      (block_split env h block size).2.prev = h.prev ∧
      (block_split env h block size).2.next = h.next ∧
      (block_split env h block size).2.brk = h.brk ∧
      (block_split env h block size).2.counters = h.counters ∧
      (block_split env h block size).2.size = upd h.size block size ∧
      (block_split env h block size).2.size block
        ≤ (block_split env h block size).2.capacity block) := by
  obtain ⟨-, hge, hle⟩ := ALIGN_le_capacity env hwf (show h.capacity block < env.modulus by omega)
    hmul hsz
  have hsum : (ALIGN env size + env.HEADER) % env.modulus = ALIGN env size + env.HEADER :=
    Nat.mod_eq_of_lt (by omega)
  refine ⟨fun hslack => ?_, fun hns => ?_⟩
  · have hd : dataOf env block = block + env.HEADER := Nat.mod_eq_of_lt (by omega)
    have hr : (dataOf env block + ALIGN env size) % env.modulus
        = dataOf env block + ALIGN env size := Nat.mod_eq_of_lt (by omega)
    have hdr : dataOf env (dataOf env block + ALIGN env size)
        = dataOf env block + ALIGN env size + env.HEADER := Nat.mod_eq_of_lt (by omega)
    have hrb : dataOf env block + ALIGN env size ≠ block := by omega
    simp only [block_split, hsum, gt_iff_lt, hslack, if_true, hr, upd_same, upd_other _ _ hrb,
      hdr, le_refl, true_and]
    exact ⟨hge, by omega⟩
  · simp only [block_split, hsum, gt_iff_lt, hns, if_false, upd_same, true_and]
    exact hsz

/-- Witness for C14: the free 64-byte block of `heap2` split for 8 bytes; the
two blocks tile the range from 65568 to 65632. -/
theorem block_split_valid_witness :
    lp64.ALIGNMENT ∣ heap2.capacity 65536 ∧ 8 ≤ heap2.capacity 65536 ∧
    8 ≤ (block_split lp64 heap2 65536 8).2.capacity 65536 ∧
    dataOf lp64 65536 + (block_split lp64 heap2 65536 8).2.capacity 65536 = 65576 ∧
    dataOf lp64 65576 + (block_split lp64 heap2 65536 8).2.capacity 65576
      = dataOf lp64 65536 + heap2.capacity 65536 := by
  obtain ⟨-, h2, -, h4, h5⟩ :=
    (block_split_valid lp64 lp64_wf heap2 65536 8 (by decide) (by decide) (by decide)
      (by decide) (by decide)).1 (by decide)
  exact ⟨by decide, by decide, h2, h4, h5⟩

/-- C15: for a non-null block that is a member of a circular doubly linked
list with predecessor `P` and successor `N` (both other nodes),
`block_detach(block)` returns the same block, leaves `P.next == N` and
`N.prev == P`, sets `block.prev == block.next == block`, and changes no
capacity, size, counter, data byte or the break.  Applied to an already
detached block it changes nothing, and `block_detach(block_detach(b))` yields
the same state as `block_detach(b)`. -/
theorem block_detach_member (h : Heap) (block : Nat) (hb0 : block ≠ 0)
    (hP : h.prev block ≠ block) (hN : h.next block ≠ block) :
    (block_detach h block).1 = block ∧
    (block_detach h block).2.next (h.prev block) = h.next block ∧
    (block_detach h block).2.prev (h.next block) = h.prev block ∧
    (block_detach h block).2.prev block = block ∧
    (block_detach h block).2.next block = block ∧
    (block_detach h block).2.capacity = h.capacity ∧
    (block_detach h block).2.size = h.size ∧
    (block_detach h block).2.counters = h.counters ∧
    (block_detach h block).2.data = h.data ∧
    (block_detach h block).2.brk = h.brk ∧
    (∀ g b, g.prev b = b → g.next b = b → block_detach g b = (b, g)) ∧
    (∀ g b, block_detach (block_detach g b).2 (block_detach g b).1 = block_detach g b) := by
  refine ⟨?_, ?_, ?_, ?_, ?_, ?_, ?_, ?_, ?_, ?_, block_detach_detached, ?_⟩
  · simp [block_detach, hb0]
  · simp [block_detach, hb0, upd_same, upd_other _ _ hP]
  · simp [block_detach, hb0, upd_same, upd_other _ _ hN]
  · simp [block_detach, hb0, upd_same]
  · simp [block_detach, hb0, upd_same]
  · simp [block_detach, hb0]
  · simp [block_detach, hb0]
  · simp [block_detach, hb0]
  · simp [block_detach, hb0]
  · simp [block_detach, hb0]
  · intro g b
    by_cases hb : b = 0
    · simp [block_detach, hb]
    · obtain ⟨h1, h2, h3⟩ := block_detach_self g b hb
      rw [h1]
      have := block_detach_detached (block_detach g b).2 b h2 h3
      rw [this]
      exact Prod.ext h1.symm rfl

/-- Witness for C15: detaching the free block of `heap2` leaves the list head
linked to itself. -/
theorem block_detach_member_witness :
    heap2.prev 65536 = 4096 ∧ heap2.next 65536 = 4096 ∧
    (block_detach heap2 65536).1 = 65536 ∧
    (block_detach heap2 65536).2.next 4096 = 4096 ∧
    (block_detach heap2 65536).2.prev 4096 = 4096 ∧
    (block_detach heap2 65536).2.prev 65536 = 65536 ∧
    (block_detach heap2 65536).2.next 65536 = 65536 := by
  obtain ⟨h1, h2, h3, h4, h5, -⟩ :=
    block_detach_member heap2 65536 (by decide) (by decide) (by decide)
  exact ⟨by decide, by decide, h1, h2, h3, h4, h5⟩

/-- C16: at a break that is not the failure sentinel, whenever
`block_release(block)` returns false the heap (break, every header field,
every byte and every counter) is exactly as before the call, and it returns
false exactly for a null block, a capacity below the trim threshold, a block
that does not end at the break, or a shrink that the heap growth primitive
refuses; whenever `block_merge(dst, src)` returns false the heap is exactly as
before, and it returns false for every pair with `dst.data + dst.capacity`
different from the address of `src`. -/
theorem block_engine_failure_atomic (env : Env) (h : Heap) (block dst src : Nat)
    (hsent : h.brk ≠ SBRK_FAILURE env) :
    ((block_release env h block).1 = false → (block_release env h block).2 = h) ∧
    ((block_release env h block).1 = false ↔
      block = 0 ∨ h.capacity block < env.TRIM_THRESHOLD ∨
      h.brk ≠ (dataOf env block + h.capacity block) % env.modulus ∨
      (sbrk env h (toIntptr env
        ((env.modulus - (env.HEADER + h.capacity block) % env.modulus) % env.modulus))).1
          = SBRK_FAILURE env) ∧
    ((block_merge env h dst src).1 = false → (block_merge env h dst src).2 = h) ∧
    ((dataOf env dst + h.capacity dst) % env.modulus ≠ src →
      block_merge env h dst src = (false, h)) := by
  refine ⟨?_, ?_, ?_, ?_⟩
  · intro hf
    simp only [block_release, sbrk_zero] at hf ⊢
    split_ifs at hf ⊢ with h1 h2 h3 h4
    · rfl
    · rfl
    · rfl
    · exact sbrk_fail_unchanged env h _ hsent h4
  · simp only [block_release, sbrk_zero]
    split_ifs with h1 h2 h3 h4
    · simp [h1]
    · simp [h2]
    · simp [h3]
    · simp [h4]
    · simp only [Bool.true_eq_false, false_iff, not_or]
      exact ⟨h1, h2, not_not.mpr (not_not.mp h3), h4⟩
  · intro hf
    simp only [block_merge] at hf ⊢
    split_ifs at hf ⊢ with h1
    rfl
  · intro hna
    simp [block_merge, hna]

/-- Witness for C16: on `heap1` the 8-byte block is below the trim threshold
and `block_release` leaves the heap as it was; the list head is not adjacent
to it and `block_merge` leaves the heap as it was. -/
theorem block_engine_failure_atomic_witness :
    heap1.brk ≠ SBRK_FAILURE lp64 ∧
    (block_release lp64 heap1 65536).1 = false ∧ (block_release lp64 heap1 65536).2 = heap1 ∧
    block_merge lp64 heap1 65536 4096 = (false, heap1) := by
  obtain ⟨h1, -, -, h4⟩ := block_engine_failure_atomic lp64 heap1 65536 65536 4096 (by decide)
  exact ⟨by decide, by decide, h1 (by decide), h4 (by decide)⟩

/-- C17 (failing input): `realloc(p, 64)` on `heap2`, where `p = 65664` is the
live block of size 8 and capacity 8 that ends at the break 65672 and the inner
`malloc(64)` hands out the free block at 65536 (data pointer 65568).  The copy
loop runs 64 times, not `min(8, 64) = 8` times: it reads the 64 addresses
65664 … 65727, among them 65672 = `old.data + old.capacity`, which is the heap
break, and it writes all 64 bytes of the new region, so the byte 85 that
`malloc` left at offset 8 of the new region is overwritten. -/
theorem realloc_copy_overreads :
    heap2.size (BLOCK_FROM_POINTER lp64 65664) = 8 ∧
    heap2.capacity (BLOCK_FROM_POINTER lp64 65664) = 8 ∧
    malloc lp64 heap2.countRealloc 64 = .ok (65568, mallocHeap lp64 heap2.countRealloc 64) ∧
    (mallocHeap lp64 heap2.countRealloc 64).brk = 65672 ∧
    realloc_reads lp64 heap2 65664 64 = .ok (List.range' 65664 64) ∧
    (List.range' 65664 64).length = 64 ∧ min 8 64 = 8 ∧
    65664 + 8 ∈ List.range' 65664 64 ∧ 65727 ∈ List.range' 65664 64 ∧
    realloc_writes lp64 heap2 65664 64 = .ok (List.range' 65568 64) ∧
    65568 + 8 ∈ List.range' 65568 64 ∧
    (mallocHeap lp64 heap2.countRealloc 64).data (65568 + 8) = 85 ∧
    ∃ h2, realloc lp64 heap2 65664 64 = .ok (65568, h2) ∧ h2.data (65568 + 8) = 0 :=
  ⟨by decide, by decide, rfl, by decide, rfl, by decide, by decide, by decide, by decide, rfl,
    by decide, by decide, _, rfl, by decide⟩

/-- C18: when `sizeof(Block)` is a multiple of the alignment unit, the block
returned by a successful `block_allocate` has a capacity that is a multiple of
the alignment unit; and if every capacity in the heap is such a multiple, then
so is every capacity after `block_allocate`, after `block_split` (the shrunk
block, the remainder, or the unsplit block) and after `block_merge` (the
enlarged `dst`). -/
theorem capacity_alignment_invariant (env : Env) (hwf : env.WF)
    (hH : env.ALIGNMENT ∣ env.HEADER) (h : Heap) :
    (∀ size, (block_allocate env h size).1 ≠ 0 →
      env.ALIGNMENT ∣ (block_allocate env h size).2.capacity (block_allocate env h size).1) ∧
    ((∀ b, env.ALIGNMENT ∣ h.capacity b) →
      (∀ size b, env.ALIGNMENT ∣ (block_allocate env h size).2.capacity b) ∧
      (∀ block size b, env.ALIGNMENT ∣ (block_split env h block size).2.capacity b) ∧
      (∀ dst src b, env.ALIGNMENT ∣ (block_merge env h dst src).2.capacity b)) := by
  refine ⟨fun size hb => ?_, fun hall => ⟨fun size b => ?_, fun block size b => ?_,
    fun dst src b => ?_⟩⟩
  · obtain ⟨h1, h2, -⟩ := block_allocate_fields env h size hb
    rw [h1, h2, upd_same]
    exact ALIGN_dvd env size
  · have hs := (sbrk_fields env h
      (toIntptr env ((env.HEADER + ALIGN env size) % env.modulus))).1
    simp only [block_allocate]
    split_ifs with hf
    · rw [hs]; exact hall b
    · simp only [hs]
      exact dvd_upd _ _ _ _ hall (ALIGN_dvd env size) b
  · simp only [block_split]
    split_ifs with hs
    · refine dvd_upd _ _ _ _ (dvd_upd _ _ _ _ hall ?_) (ALIGN_dvd env size) b
      exact Nat.dvd_sub' (hall block)
        (dvd_wrap env hwf (Nat.dvd_add (ALIGN_dvd env size) hH))
    · exact hall b
  · by_cases hadj : (dataOf env dst + h.capacity dst) % env.modulus = src
    · have hc : (block_merge env h dst src).2.capacity = upd h.capacity dst
          ((h.capacity dst + (env.HEADER + h.capacity src) % env.modulus) % env.modulus) := by
        simp only [block_merge, hadj, if_true]
        split_ifs <;> rfl
      rw [hc]
      refine dvd_upd _ _ _ _ hall ?_ b
      exact dvd_wrap env hwf
        (Nat.dvd_add (hall dst) (dvd_wrap env hwf (Nat.dvd_add hH (hall src))))
    · simp only [block_merge, hadj, if_false]
      exact hall b

/-- Witness for C18: on `heap2` (all capacities multiples of 8) the block from
`block_allocate(5)`, the two blocks from splitting the free block, and the
block merged from the two adjacent blocks have aligned capacities. -/
theorem capacity_alignment_invariant_witness :
    lp64.ALIGNMENT ∣ lp64.HEADER ∧
    lp64.ALIGNMENT ∣ (block_allocate lp64 heap2 5).2.capacity 65672 ∧
    lp64.ALIGNMENT ∣ (block_split lp64 heap2 65536 8).2.capacity 65536 ∧
    lp64.ALIGNMENT ∣ (block_split lp64 heap2 65536 8).2.capacity 65576 ∧
    lp64.ALIGNMENT ∣ (block_merge lp64 heap2 65536 65632).2.capacity 65536 := by
  have hall : ∀ b, lp64.ALIGNMENT ∣ heap2.capacity b := by
    intro b
    show 8 ∣ (if b = 65536 then 64 else if b = 65632 then 8 else 0)
    split_ifs <;> decide
  obtain ⟨h1, h2⟩ := capacity_alignment_invariant lp64 lp64_wf (by decide) heap2
  obtain ⟨-, h3, h4⟩ := h2 hall
  exact ⟨by decide, h1 5 (by decide), h3 65536 8 65536, h3 65536 8 65576, h4 65536 65632 65536⟩

/-- C19: let `a :: (l1 ++ b :: l2)` be a circular doubly linked list of the heap
(each node once, `next` leading forward and `prev` back), so that every member
`n` satisfies `n.next.prev == n` and `n.prev.next == n`.  Then after
`block_detach(b)` the list is `a :: (l1 ++ l2)` (`b` removed); after
`block_split(b, size)` with `b.capacity > ALIGN(size) + sizeof(Block)` and the
remainder `r` at a new address it is `a :: (l1 ++ b :: r :: l2)` (`r` added
right after `b`); after `block_merge(dst, b)` with `dst` detached, outside the
list and adjacent to `b`, the merge succeeds and the list is
`a :: (l1 ++ dst :: l2)` (`b` replaced by `dst`); and in each case every member
of the new list again satisfies `n.next.prev == n` and `n.prev.next == n`. -/
theorem list_wellformed_preserved (env : Env) (h : Heap) (a b : Nat) (l1 l2 : List Nat)
    (hc : Cycle h a (l1 ++ b :: l2)) :
    (∀ n ∈ a :: (l1 ++ b :: l2), h.prev (h.next n) = n ∧ h.next (h.prev n) = n) ∧
    (b ≠ 0 →
      Cycle (block_detach h b).2 a (l1 ++ l2) ∧
      ∀ n ∈ a :: (l1 ++ l2),
        (block_detach h b).2.prev ((block_detach h b).2.next n) = n ∧
        (block_detach h b).2.next ((block_detach h b).2.prev n) = n) ∧
    (∀ size, ALIGN env size + env.HEADER < h.capacity b →
      (dataOf env b + ALIGN env size) % env.modulus ∉ a :: (l1 ++ b :: l2) →
      Cycle (block_split env h b size).2 a
        (l1 ++ b :: (dataOf env b + ALIGN env size) % env.modulus :: l2) ∧
      ∀ n ∈ a :: (l1 ++ b :: (dataOf env b + ALIGN env size) % env.modulus :: l2),
        (block_split env h b size).2.prev ((block_split env h b size).2.next n) = n ∧
        (block_split env h b size).2.next ((block_split env h b size).2.prev n) = n) ∧
    (∀ dst, (dataOf env dst + h.capacity dst) % env.modulus = b → h.next dst = dst →
      dst ∉ a :: (l1 ++ b :: l2) →
      (block_merge env h dst b).1 = true ∧
      Cycle (block_merge env h dst b).2 a (l1 ++ dst :: l2) ∧
      ∀ n ∈ a :: (l1 ++ dst :: l2),
        (block_merge env h dst b).2.prev ((block_merge env h dst b).2.next n) = n ∧
        (block_merge env h dst b).2.next ((block_merge env h dst b).2.prev n) = n) := by
  refine ⟨cycle_wf h a _ hc, fun hb0 => ?_, fun size hslack hr => ?_,
    fun dst hadj hdet hd => ?_⟩
  · have := cycle_detach h a b l1 l2 hc hb0
    exact ⟨this, cycle_wf _ a _ this⟩
  · have hcond : h.capacity b > (ALIGN env size + env.HEADER) % env.modulus :=
      lt_of_le_of_lt (Nat.mod_le _ _) hslack
    have := cycle_split env h size a b l1 l2 hc hcond hr
    exact ⟨this, cycle_wf _ a _ this⟩
  · have := cycle_merge env h a dst b l1 l2 hc hadj hdet hd
    exact ⟨by simp [block_merge, hadj], this, cycle_wf _ a _ this⟩

/-- Witness for C19: the free list of `heap2` (head 4096, one member 65536)
under detach and split, and the free list of `heap3` (head 4096, one member
65576) under the merge with the detached block 65536 before it. -/
theorem list_wellformed_preserved_witness :
    Cycle heap2 4096 ([] ++ 65536 :: []) ∧
    Cycle (block_detach heap2 65536).2 4096 [] ∧
    Cycle (block_split lp64 heap2 65536 8).2 4096 [65536, 65576] ∧
    Cycle heap3 4096 ([] ++ 65576 :: []) ∧
    (block_merge lp64 heap3 65536 65576).1 = true ∧
    Cycle (block_merge lp64 heap3 65536 65576).2 4096 [65536] := by
  have h2 := list_wellformed_preserved lp64 heap2 4096 65536 [] [] (by decide)
  have h3 := list_wellformed_preserved lp64 heap3 4096 65576 [] [] (by decide)
  obtain ⟨m1, m2, -⟩ := h3.2.2.2 65536 (by decide) (by decide) (by decide)
  exact ⟨by decide, (h2.2.1 (by decide)).1, (h2.2.2.1 8 (by decide) (by decide)).1,
    by decide, m1, m2⟩

/-- C20: for a block `b` that lies in the address space and a size with
`b.capacity > ALIGN(size) + sizeof(Block)`, after `block_split(b, size)` the
call `block_merge(b, r)` on the remainder `r = b.data + ALIGN(size)` returns
true and restores `b.capacity` and `BLOCKS` to their values before the split,
with `SPLITS` and `MERGES` each increased by one. -/
theorem block_split_merge_roundtrip (env : Env) (h : Heap) (b size : Nat)
    (hH : 0 < env.HEADER)
    (hin : b + env.HEADER + h.capacity b ≤ env.modulus)
    (hslack : ALIGN env size + env.HEADER < h.capacity b) :
    (block_merge env (block_split env h b size).2 b (dataOf env b + ALIGN env size)).1 = true ∧
    (block_merge env (block_split env h b size).2 b (dataOf env b + ALIGN env size)).2.capacity b
      = h.capacity b ∧
    (block_merge env (block_split env h b size).2 b
      (dataOf env b + ALIGN env size)).2.counters.BLOCKS = h.counters.BLOCKS ∧
    (block_merge env (block_split env h b size).2 b
      (dataOf env b + ALIGN env size)).2.counters.SPLITS = h.counters.SPLITS + 1 ∧
    (block_merge env (block_split env h b size).2 b
      (dataOf env b + ALIGN env size)).2.counters.MERGES = h.counters.MERGES + 1 := by
  have hd : dataOf env b = b + env.HEADER := Nat.mod_eq_of_lt (by omega)
  have hsum : (ALIGN env size + env.HEADER) % env.modulus = ALIGN env size + env.HEADER :=
    Nat.mod_eq_of_lt (by omega)
  have hr : (dataOf env b + ALIGN env size) % env.modulus = dataOf env b + ALIGN env size :=
    Nat.mod_eq_of_lt (by omega)
  have hrb : dataOf env b + ALIGN env size ≠ b := by omega
  have hg1 : (block_split env h b size).2.capacity b = ALIGN env size := by
    simp only [block_split, hsum, gt_iff_lt, hslack, if_true, upd_same]
  have hg2 : (block_split env h b size).2.capacity (dataOf env b + ALIGN env size)
      = h.capacity b - (ALIGN env size + env.HEADER) := by
    simp only [block_split, hsum, gt_iff_lt, hslack, if_true, hr, upd_same, upd_other _ _ hrb]
  have hg3 : (block_split env h b size).2.next b = dataOf env b + ALIGN env size := by
    simp only [block_split, hsum, gt_iff_lt, hslack, if_true, hr, upd_same]
  have hg4 : (block_split env h b size).2.counters
      = { h.counters with SPLITS := h.counters.SPLITS + 1, BLOCKS := h.counters.BLOCKS + 1 } := by
    simp only [block_split, hsum, gt_iff_lt, hslack, if_true]
  have hadj : (dataOf env b + (block_split env h b size).2.capacity b) % env.modulus
      = dataOf env b + ALIGN env size := by rw [hg1, hr]
  have hmerged : ((block_split env h b size).2.capacity b
      + (env.HEADER + (block_split env h b size).2.capacity (dataOf env b + ALIGN env size))
        % env.modulus) % env.modulus = h.capacity b := by
    have e1 : (env.HEADER + (h.capacity b - (ALIGN env size + env.HEADER))) % env.modulus
        = env.HEADER + (h.capacity b - (ALIGN env size + env.HEADER)) :=
      Nat.mod_eq_of_lt (by omega)
    have e2 : ALIGN env size + (env.HEADER + (h.capacity b - (ALIGN env size + env.HEADER)))
        = h.capacity b := by omega
    rw [hg1, hg2, e1, e2, Nat.mod_eq_of_lt (show h.capacity b < env.modulus by omega)]
  simp only [block_merge, hadj, if_true, hg3, hrb, if_false, hmerged, upd_same, hg4, true_and]
  exact ⟨by ring, trivial⟩

/-- Witness for C20: splitting the free 64-byte block of `heap2` for 8 bytes
and merging the remainder at 65576 back restores the capacity 64. -/
theorem block_split_merge_roundtrip_witness :
    ALIGN lp64 8 + lp64.HEADER < heap2.capacity 65536 ∧
    (block_merge lp64 (block_split lp64 heap2 65536 8).2 65536 65576).1 = true ∧
    (block_split lp64 heap2 65536 8).2.capacity 65536 = 8 ∧
    (block_merge lp64 (block_split lp64 heap2 65536 8).2 65536 65576).2.capacity 65536 = 64 := by
  obtain ⟨h1, h2, -⟩ :=
    block_split_merge_roundtrip lp64 heap2 65536 8 (by decide) (by decide) (by decide)
  exact ⟨by decide, h1, by decide, h2⟩

end Malloc
